import Mathlib

/-!
# FFTNative: transform plans and the voice band extractor

A shallow embedding of `core-fft/src/main/cpp/FFTNative.cpp`.

* `float` and `double` values are real numbers and `std::complex` values are complex
  numbers, and their operations are exact, except in the section on the normalization block
  in float32 arithmetic, where every float32 operation rounds its exact result.
* `jint`, `jsize` and `int` values are integers; `size_t` values are natural numbers.
* A `jfloatArray` reference is an `Option (List ℝ)`, `none` being the null reference.
* A write past the end of a `std::vector` is undefined behaviour in the source; here it
  is the fault `Fault.outOfBounds`.
-/

noncomputable section

namespace FFTNative

/-! ## Host exceptions -/

/-- The Java exception classes named in calls of `throwJavaException`. -/
inductive JavaException
  | IllegalArgumentException
  | IllegalStateException
  | OutOfMemoryError
  | RuntimeException
  deriving DecidableEq, Repr

/-- A pending Java exception: its class and its message. -/
abbrev Thrown := JavaException × String

/-! ## struct FFTPlan -/

/-- The struct `FFTPlan` (the field `in` is spelled `in_`; the mutex is not modelled). -/
structure FFTPlan where
  size : Int
  in_ : List ℝ
  out : List ℂ

/-- The constructor `FFTPlan(int s)`: `in.resize(size); out.resize(size / 2 + 1)`. -/
def FFTPlan.new (s : Int) : FFTPlan :=
  { size := s
    in_ := List.replicate s.toNat 0
    out := List.replicate (Int.tdiv s 2 + 1).toNat 0 }

/-- What `new FFTPlan(size)` can do: yield the (non-null) address of the new object, or
throw `std::bad_alloc`, or throw another `std::exception`. -/
inductive NewOutcome
  | allocated (addr : Int) (nonnull : addr ≠ 0)
  | badAlloc
  | otherException

/-- The outcome of `createPlan`: the returned `jlong`, the pending exception if one was
thrown, and the plan object the handle designates if one was built. -/
structure CreateResult where
  handle : Int
  pending : Option Thrown
  plan : Option FFTPlan

/-- The native `Java_gos_denver_fft_FFTNative_createPlan`. For `size > 0` both `size` and
`size - 1` are non-negative, so `size & (size - 1)` is the bitwise and of two naturals. -/
def createPlan (heap : NewOutcome) (size : Int) : CreateResult :=
  if size ≤ 0 then
    ⟨0, some (.IllegalArgumentException, "Size must be positive"), none⟩
  else if (size.toNat &&& (size - 1).toNat) ≠ 0 then
    ⟨0, some (.IllegalArgumentException, "Size must be a power of 2"), none⟩
  else
    match heap with
    | .allocated addr _ => ⟨addr, none, some (FFTPlan.new size)⟩
    | .badAlloc => ⟨0, some (.OutOfMemoryError, "Failed to allocate FFT plan"), none⟩
    | .otherException => ⟨0, some (.RuntimeException, "Failed to create FFT plan"), none⟩

/-! ## The external transform primitive -/

/-- Modelled from the spec: the twiddle factor of the external discrete Fourier transform
(`pocketfft_hdronly.h` is not among the sources), `exp (-2 * π * i * e / n)` on the forward
pass and `exp (2 * π * i * e / n)` on the backward pass. -/
def twiddle (n : ℕ) (forward : Bool) (e : ℕ) : ℂ :=
  if forward then (Complex.exp (2 * Real.pi * Complex.I / n))⁻¹ ^ e
  else Complex.exp (2 * Real.pi * Complex.I / n) ^ e

/-- Modelled from the spec: the external primitive `pocketfft::r2c` on one axis of length
`n`, a pure function that sends `n` real samples to the `n / 2 + 1` complex bins
`fct * Σ_j data_in[j] * twiddle (j * k)`. -/
def r2c (n : ℕ) (forward : Bool) (data_in : List ℝ) (fct : ℝ) : List ℂ :=
  (List.range (n / 2 + 1)).map fun k =>
    (fct : ℂ) * ∑ j ∈ Finset.range n, (data_in.getD j 0 : ℂ) * twiddle n forward (j * k)

/-- Modelled from the spec: bin `k` of the full length-`n` spectrum that the `n / 2 + 1`
stored bins of a real signal stand for (the upper half is the conjugate mirror image). -/
def hermitianBin (n : ℕ) (data_in : List ℂ) (k : ℕ) : ℂ :=
  if 2 * k ≤ n then data_in.getD k 0 else (starRingEnd ℂ) (data_in.getD (n - k) 0)

/-- Modelled from the spec: the external primitive `pocketfft::c2r` on one axis of length
`n`, a pure function that sends `n / 2 + 1` complex bins to the `n` real samples
`fct * Σ_k Re (bin k * twiddle (j * k))`. -/
def c2r (n : ℕ) (forward : Bool) (data_in : List ℂ) (fct : ℝ) : List ℝ :=
  (List.range n).map fun j =>
    fct * ∑ k ∈ Finset.range n, (hermitianBin n data_in k * twiddle n forward (j * k)).re

/-! ## The transform natives -/

/-- What the JNI environment decides during one native call: whether the `k`-th call of
`GetFloatArrayElements` yields a non-null pointer. -/
structure JNIEnv where
  pinned : ℕ → Bool

/-- Everything `forwardTransform` can change: the plan object, the three Java arrays and the
pending exception. -/
structure ForwardResult where
  plan : FFTPlan
  inArray : Option (List ℝ)
  magArray : Option (List ℝ)
  phaseArray : Option (List ℝ)
  pending : Option Thrown

/-- The loop `for (int i = 0; i <= plan->size / 2; i++)` of `forwardTransform`, run `count`
times. -/
def polarLoop (out : List ℂ) (count : ℕ) (mag phase : List ℝ) : List ℝ × List ℝ :=
  ((List.range count).foldl (fun m i => m.set i (Complex.abs (out.getD i 0))) mag,
   (List.range count).foldl (fun ph i => ph.set i (Complex.arg (out.getD i 0))) phase)

/-- The native `Java_gos_denver_fft_FFTNative_forwardTransform`; `plan` is the object the
handle `planPtr` designates. The transform primitive is taken not to throw. -/
def forwardTransform (env : JNIEnv) (planPtr : Int) (plan : FFTPlan)
    (inArray magArray phaseArray : Option (List ℝ)) : ForwardResult :=
  let fail (e : Thrown) : ForwardResult := ⟨plan, inArray, magArray, phaseArray, some e⟩
  if planPtr = 0 then fail (.IllegalStateException, "FFT plan is null")
  else
    match inArray, magArray, phaseArray with
    | some input, some mag, some phase =>
      if (input.length : Int) ≠ plan.size then
        fail (.IllegalArgumentException, "Input array size doesn\x27t match plan size")
      else if (mag.length : Int) ≠ Int.tdiv plan.size 2 + 1 ∨
          (phase.length : Int) ≠ Int.tdiv plan.size 2 + 1 then
        fail (.IllegalArgumentException, "Output arrays size mismatch")
      else if env.pinned 0 = false then
        fail (.RuntimeException, "Failed to access input array")
      else if env.pinned 1 = false ∨ env.pinned 2 = false then
        fail (.RuntimeException, "Failed to access output arrays")
      else
        let n := plan.size.toNat
        let in' := input.take n ++ plan.in_.drop n
        let out' := r2c n true in' 1 ++ plan.out.drop (n / 2 + 1)
        let mp := polarLoop out' (Int.tdiv plan.size 2 + 1).toNat mag phase
        ⟨{ plan with in_ := in', out := out' }, some input, some mp.1, some mp.2, none⟩
    | _, _, _ => fail (.IllegalArgumentException, "Input arrays cannot be null")

/-- Everything `inverseTransform` can change: the plan object, the three Java arrays and the
pending exception. -/
structure InverseResult where
  plan : FFTPlan
  magArray : Option (List ℝ)
  phaseArray : Option (List ℝ)
  outArray : Option (List ℝ)
  pending : Option Thrown

/-- The loop `for (int i = 0; i <= plan->size / 2; i++)` of `inverseTransform`, run `count`
times. -/
def cartesianLoop (mag phase : List ℝ) (count : ℕ) (out : List ℂ) : List ℂ :=
  (List.range count).foldl
    (fun o i => o.set i
      (⟨mag.getD i 0 * Real.cos (phase.getD i 0), mag.getD i 0 * Real.sin (phase.getD i 0)⟩ : ℂ))
    out

/-- The native `Java_gos_denver_fft_FFTNative_inverseTransform`; `plan` is the object the
handle `planPtr` designates. The transform primitive is taken not to throw. -/
def inverseTransform (env : JNIEnv) (planPtr : Int) (plan : FFTPlan)
    (magArray phaseArray outArray : Option (List ℝ)) : InverseResult :=
  let fail (e : Thrown) : InverseResult := ⟨plan, magArray, phaseArray, outArray, some e⟩
  if planPtr = 0 then fail (.IllegalStateException, "FFT plan is null")
  else
    match magArray, phaseArray, outArray with
    | some mag, some phase, some output =>
      if (mag.length : Int) ≠ Int.tdiv plan.size 2 + 1 ∨
          (phase.length : Int) ≠ Int.tdiv plan.size 2 + 1 then
        fail (.IllegalArgumentException, "Input arrays size mismatch")
      else if (output.length : Int) ≠ plan.size then
        fail (.IllegalArgumentException, "Output array size doesn\x27t match plan size")
      else if env.pinned 0 = false ∨ env.pinned 1 = false then
        fail (.RuntimeException, "Failed to access input arrays")
      else
        let n := plan.size.toNat
        let out' := cartesianLoop mag phase (Int.tdiv plan.size 2 + 1).toNat plan.out
        let in' := c2r n false out' (1 / (plan.size : ℝ)) ++ plan.in_.drop n
        ⟨{ plan with in_ := in', out := out' }, some mag, some phase,
          some (in'.take n ++ output.drop n), none⟩
    | _, _, _ => fail (.IllegalArgumentException, "Input arrays cannot be null")

/-! ## class VoiceFFTProcessor -/

/-- The struct `VoiceVariables`. -/
structure VoiceVariables where
  volume : ℝ
  spectrum : List ℝ

/-- The ways a call of the extractor can go wrong. -/
inductive Fault
  | outOfBounds
  | lengthError
  deriving DecidableEq, Repr

/-- The data members of the class `VoiceFFTProcessor`. -/
structure VoiceFFTProcessor where
  sampleRate : Int
  voiceBandRanges : List (ℝ × ℝ)
  bandAmplification : List ℝ

/-- The constructor `VoiceFFTProcessor(int sampleRate)`. -/
def VoiceFFTProcessor.new (sampleRate : Int) : VoiceFFTProcessor :=
  { sampleRate := sampleRate
    voiceBandRanges :=
      [(85, 255), (256, 500), (501, 1000), (1001, 1500),
       (1501, 2000), (2001, 2500), (2501, 3000), (3001, 3400)]
    bandAmplification := [1.8, 1.6, 1.4, 1.3, 1.2, 1.1, 1.0, 0.9] }

/-- The locals of the band loop that the bin loop updates. -/
structure BandScan where
  bandEnergy : ℝ
  peakMagnitude : ℝ
  peakFrequency : ℝ

/-- One iteration of the bin loop `for (size_t i = 0; i < spectrum.size(); i++)`. -/
def binStep (spectrum : List ℂ) (binSize rangeStart rangeEnd : ℝ)
    (acc : BandScan) (i : ℕ) : BandScan :=
  let frequency : ℝ := (i : ℝ) * binSize
  if frequency ≥ rangeStart ∧ frequency ≤ rangeEnd then
    let magnitude : ℝ := Complex.abs (spectrum.getD i 0)
    let bandEnergy := acc.bandEnergy + magnitude
    if magnitude > acc.peakMagnitude then
      { bandEnergy := bandEnergy, peakMagnitude := magnitude, peakFrequency := frequency }
    else
      { acc with bandEnergy := bandEnergy }
  else acc

/-- The whole bin loop for one band range. -/
def scanBand (spectrum : List ℂ) (binSize rangeStart rangeEnd : ℝ) : BandScan :=
  (List.range spectrum.length).foldl (binStep spectrum binSize rangeStart rangeEnd) ⟨0, 0, 0⟩

/-- The locals of `processSpectralData` that the band loop updates. -/
structure BandLoop where
  bands : List ℝ
  formants : List ℝ
  totalEnergy : ℝ

/-- The `switch (bandIndex)` that stores the formant frequencies. -/
def storeFormant (formants : List ℝ) (bandIndex : ℕ) (peakFrequency : ℝ) : List ℝ :=
  match bandIndex with
  | 2 => formants.set 0 peakFrequency
  | 3 | 4 => if peakFrequency > 0 then formants.set 1 peakFrequency else formants
  | 5 | 6 => if peakFrequency > 0 then formants.set 2 peakFrequency else formants
  | _ => formants

/-- One iteration of the band loop. The store `bands[bandIndex] = ...` is unchecked in the
source: past the end of `bands` it is the fault `outOfBounds`. -/
def bandStep (p : VoiceFFTProcessor) (spectrum : List ℂ) (binSize : ℝ)
    (st : BandLoop) (bandIndex : ℕ) : Except Fault BandLoop :=
  let range := p.voiceBandRanges.getD bandIndex (0, 0)
  let scan := scanBand spectrum binSize range.1 range.2
  if bandIndex < st.bands.length then
    let bands := st.bands.set bandIndex (scan.bandEnergy * p.bandAmplification.getD bandIndex 0)
    .ok { bands := bands
          formants := storeFormant st.formants bandIndex scan.peakFrequency
          totalEnergy := st.totalEnergy + bands.getD bandIndex 0 }
  else
    .error .outOfBounds

/-- The band loop `for (size_t bandIndex = 0; bandIndex < voiceBandRanges.size(); ...)`,
started from the freshly constructed `bands(numBands)`, `formants(3)` and `totalEnergy`. -/
def bandLoop (p : VoiceFFTProcessor) (spectrum : List ℂ) (binSize : ℝ)
    (numBands : ℕ) : Except Fault BandLoop :=
  (List.range p.voiceBandRanges.length).foldlM (bandStep p spectrum binSize)
    { bands := List.replicate numBands 0
      formants := List.replicate 3 0
      totalEnergy := 0 }

/-- The value of `*std::max_element(first, last)` on a non-empty range starting with `x`. -/
def maxElement (x : ℝ) (rest : List ℝ) : ℝ :=
  rest.foldl (fun largest y => if largest < y then y else largest) x

/-- The block `if (totalEnergy > 0) { ... }` of `processSpectralData`. -/
def normalize (totalEnergy : ℝ) (bands : List ℝ) : Except Fault (List ℝ) :=
  if totalEnergy > 0 then
    match bands with
    | [] => .error .outOfBounds
    | x :: rest =>
      let maxBandValue := maxElement x rest
      .ok ((x :: rest).map fun band => (band / maxBandValue) ^ (0.7 : ℝ))
  else
    .ok bands

/-- The method `VoiceFFTProcessor::processSpectralData`. A negative `numBands` makes the
constructor of `bands` throw `std::length_error`. -/
def VoiceFFTProcessor.processSpectralData (p : VoiceFFTProcessor) (spectrum : List ℂ)
    (binSize : ℝ) (numBands : Int) : Except Fault VoiceVariables :=
  if numBands < 0 then .error .lengthError
  else
    match bandLoop p spectrum binSize numBands.toNat with
    | .error e => .error e
    | .ok st =>
      match normalize st.totalEnergy st.bands with
      | .error e => .error e
      | .ok bands => .ok { volume := st.totalEnergy, spectrum := bands }

/-- The expression `VoiceVariables{0.0f, std::vector<float>(numBands, 0.0f)}`. -/
def zeroResult (numBands : Int) : Except Fault VoiceVariables :=
  if numBands < 0 then .error .lengthError
  else .ok { volume := 0, spectrum := List.replicate numBands.toNat 0 }

/-- The conversion `static_cast<unsigned char>(b) & 0xFF` of a `jbyte` to a `double`. -/
def byteValue (b : Int) : ℝ := ((b % 256 : Int) : ℝ)

/-- The loop of `processFFT` that converts byte data to `complexSize` complex numbers. -/
def complexArray (fftData : List Int) (complexSize : ℕ) : List ℂ :=
  (List.range complexSize).map fun i =>
    (⟨byteValue (fftData.getD (i * 2) 0), byteValue (fftData.getD (i * 2 + 1) 0)⟩ : ℂ)

/-- The method `VoiceFFTProcessor::processFFT`. The handler `catch (std::exception)` sees
the `std::length_error` but not an out-of-bounds store. -/
def VoiceFFTProcessor.processFFT (p : VoiceFFTProcessor) (fftData : List Int)
    (numBands : Int) : Except Fault VoiceVariables :=
  if fftData.isEmpty then zeroResult numBands
  else
    let complexSize : ℕ := fftData.length / 2
    let binSize : ℝ := (p.sampleRate : ℝ) / ((complexSize * 2 : ℕ) : ℝ)
    match p.processSpectralData (complexArray fftData complexSize) binSize numBands with
    | .error .lengthError => zeroResult numBands
    | r => r

/-! ## The normalization block in float32 arithmetic

The definitions above take `float` operations as exact. The ones below make the rounding of
the float32 operations of the normalization block explicit: a float is the real number it
denotes, and an operation yields the exact result rounded to the nearest float, ties to
even. Overflow is not modelled; the quotients of the block are at most 1. -/

/-- Round a real number to the nearest integer, ties to the even one. -/
def roundHalfEven (q : ℝ) : ℤ :=
  if q - ⌊q⌋ < 1 / 2 then ⌊q⌋
  else if 1 / 2 < q - ⌊q⌋ then ⌊q⌋ + 1
  else if Even ⌊q⌋ then ⌊q⌋ else ⌊q⌋ + 1

/-- Round a real number to the nearest binary floating-point number with `p` significand
bits and least exponent `emin` (gradual underflow below `2 ^ emin`), ties to even. -/
def roundBinary (p : ℕ) (emin : ℤ) (x : ℝ) : ℝ :=
  (roundHalfEven (x / (2 : ℝ) ^ (max (Int.log 2 |x|) emin - ((p : ℤ) - 1))) : ℝ) *
    (2 : ℝ) ^ (max (Int.log 2 |x|) emin - ((p : ℤ) - 1))

/-- Rounding to `float` (IEEE binary32), as in `static_cast<float>` and in every float32
operation. -/
def toFloat (x : ℝ) : ℝ := roundBinary 24 (-126) x

/-- Rounding to `double` (IEEE binary64). -/
def toDouble (x : ℝ) : ℝ := roundBinary 53 (-1022) x

/-- The float stored in `bandAmplification[bandIndex]`: the literal of the table (`1.8f`,
`1.6f`, ...) rounded to float32. -/
def amplificationF32 (p : VoiceFFTProcessor) (bandIndex : ℕ) : ℝ :=
  toFloat (p.bandAmplification.getD bandIndex 0)

/-- The value `static_cast<float>(bandEnergy * bandAmplification[bandIndex])` stored in
`bands[bandIndex]`: a `double` product rounded to `float`. -/
def bandValueF32 (p : VoiceFFTProcessor) (bandEnergy : ℝ) (bandIndex : ℕ) : ℝ :=
  toFloat (toDouble (bandEnergy * amplificationF32 p bandIndex))

/-- The float `totalEnergy` after `totalEnergy += bands[bandIndex]` has run over the bands. -/
def totalEnergyF32 (bands : List ℝ) : ℝ :=
  bands.foldl (fun totalEnergy band => toFloat (totalEnergy + band)) 0

/-- The block `if (totalEnergy > 0) { ... }` of `processSpectralData` with its float32
division `band / maxBandValue` rounded and the C library function behind
`std::pow(float, float)` as the parameter `powf`. -/
def normalizeF32 (powf : ℝ → ℝ → ℝ) (totalEnergy : ℝ) (bands : List ℝ) :
    Except Fault (List ℝ) :=
  if totalEnergy > 0 then
    match bands with
    | [] => .error .outOfBounds
    | x :: rest =>
      let maxBandValue := maxElement x rest
      .ok ((x :: rest).map fun band => powf (toFloat (band / maxBandValue)) (toFloat 0.7))
  else
    .ok bands

/-- The correctly rounded power `x ^ y`, one function with the two properties of `powf` that
the statements below rely on. -/
def powfRounded (x y : ℝ) : ℝ := toFloat (x ^ y)

/-! ## The extractor as the specification words it -/

/-- Step 1 of `Analyze`: the sum of `|spectrum[i]|` over the indices `i` whose frequency
`i * binSize` lies in `[lo, hi]`. -/
def bandMagnitudeSum (spectrum : List ℂ) (binSize lo hi : ℝ) : ℝ :=
  ((List.range spectrum.length).map fun (i : ℕ) =>
    if lo ≤ (i : ℝ) * binSize ∧ (i : ℝ) * binSize ≤ hi then
      Complex.abs (spectrum.getD i 0) else 0).sum

/-- Step 3 of `Analyze`: the value of band `b` before normalization,
`bandEnergy * bandGain[b]`; entries past the configured bands are never written. -/
def preNormalized (p : VoiceFFTProcessor) (spectrum : List ℂ) (binSize : ℝ) (b : ℕ) : ℝ :=
  if b < p.voiceBandRanges.length then
    bandMagnitudeSum spectrum binSize (p.voiceBandRanges.getD b (0, 0)).1
      (p.voiceBandRanges.getD b (0, 0)).2 * p.bandAmplification.getD b 0
  else 0

/-- Step 4 of `Analyze`: `totalEnergy`, the sum of the pre-normalization values of the
configured bands. -/
def totalOf (p : VoiceFFTProcessor) (spectrum : List ℂ) (binSize : ℝ) : ℝ :=
  ((List.range p.voiceBandRanges.length).map (preNormalized p spectrum binSize)).sum

/-! ## Lemmas on the bin loop and the band loop -/

theorem foldl_binStep_bandEnergy (spectrum : List ℂ) (binSize lo hi : ℝ) (l : List ℕ)
    (acc : BandScan) :
    (l.foldl (binStep spectrum binSize lo hi) acc).bandEnergy =
      acc.bandEnergy + (l.map fun (i : ℕ) =>
        if lo ≤ (i : ℝ) * binSize ∧ (i : ℝ) * binSize ≤ hi then
          Complex.abs (spectrum.getD i 0) else 0).sum := by
  induction l generalizing acc with
  | nil => simp
  | cons i l ih =>
    rw [List.foldl_cons, ih]
    simp only [List.map_cons, List.sum_cons]
    rw [← add_assoc]
    congr 1
    unfold binStep
    by_cases h : lo ≤ (i : ℝ) * binSize ∧ (i : ℝ) * binSize ≤ hi
    · simp only [ge_iff_le, h, and_self, if_true]
      split <;> rfl
    · simp only [ge_iff_le, h, if_false, add_zero]

theorem scanBand_bandEnergy (spectrum : List ℂ) (binSize lo hi : ℝ) :
    (scanBand spectrum binSize lo hi).bandEnergy = bandMagnitudeSum spectrum binSize lo hi := by
  unfold scanBand bandMagnitudeSum
  rw [foldl_binStep_bandEnergy]
  simp

theorem bandMagnitudeSum_nonneg (spectrum : List ℂ) (binSize lo hi : ℝ) :
    0 ≤ bandMagnitudeSum spectrum binSize lo hi := by
  unfold bandMagnitudeSum
  apply List.sum_nonneg
  intro x hx
  rw [List.mem_map] at hx
  obtain ⟨i, _, rfl⟩ := hx
  split
  · exact AbsoluteValue.nonneg _ _
  · exact le_refl 0

theorem preNormalized_nonneg (sr : Int) (spectrum : List ℂ) (binSize : ℝ) (b : ℕ) :
    0 ≤ preNormalized (VoiceFFTProcessor.new sr) spectrum binSize b := by
  unfold preNormalized
  split
  · rename_i hb
    apply mul_nonneg (bandMagnitudeSum_nonneg _ _ _ _)
    have hb8 : b < 8 := hb
    interval_cases b <;> simp [VoiceFFTProcessor.new] <;> norm_num
  · exact le_refl 0

theorem foldlM_bandStep (p : VoiceFFTProcessor) (spectrum : List ℂ) (binSize : ℝ)
    (l : List ℕ) (st : BandLoop)
    (hl : ∀ b ∈ l, b < st.bands.length ∧ b < p.voiceBandRanges.length) :
    ∃ st', l.foldlM (bandStep p spectrum binSize) st = .ok st' ∧
      st'.bands = l.foldl (fun bs b => bs.set b (preNormalized p spectrum binSize b)) st.bands ∧
      st'.totalEnergy = st.totalEnergy + (l.map (preNormalized p spectrum binSize)).sum := by
  induction l generalizing st with
  | nil => exact ⟨st, rfl, rfl, by simp⟩
  | cons b l ih =>
    obtain ⟨hb1, hb2⟩ := hl b (List.mem_cons_self b l)
    have hstep : ∃ fm, bandStep p spectrum binSize st b = .ok
        { bands := st.bands.set b (preNormalized p spectrum binSize b)
          formants := fm
          totalEnergy := st.totalEnergy + preNormalized p spectrum binSize b } := by
      refine ⟨storeFormant st.formants b
            (scanBand spectrum binSize (p.voiceBandRanges.getD b (0, 0)).1
              (p.voiceBandRanges.getD b (0, 0)).2).peakFrequency, ?_⟩
      unfold bandStep
      simp only [hb1, if_true, scanBand_bandEnergy]
      have hv : preNormalized p spectrum binSize b =
          bandMagnitudeSum spectrum binSize (p.voiceBandRanges.getD b (0, 0)).1
            (p.voiceBandRanges.getD b (0, 0)).2 * p.bandAmplification.getD b 0 := by
        unfold preNormalized
        rw [if_pos hb2]
      rw [← hv]
      congr 2
      simp [List.getD_eq_getElem?_getD, hb1]
    obtain ⟨fm, hstep⟩ := hstep
    obtain ⟨st', h1, h2, h3⟩ := ih
      { bands := st.bands.set b (preNormalized p spectrum binSize b)
        formants := fm
        totalEnergy := st.totalEnergy + preNormalized p spectrum binSize b } (by
      intro c hc
      have := hl c (List.mem_cons_of_mem b hc)
      simpa using this)
    refine ⟨st', ?_, ?_, ?_⟩
    · rw [List.foldlM_cons, hstep]
      exact h1
    · rw [h2]; rfl
    · rw [h3]
      simp only [List.map_cons, List.sum_cons]
      ring

theorem foldl_set_range {α : Type} (f : ℕ → α) (d : α) (m : ℕ) (bs : List α)
    (hm : m ≤ bs.length) :
    (List.range m).foldl (fun bs b => bs.set b (f b)) bs =
      (List.range bs.length).map (fun i => if i < m then f i else bs.getD i d) := by
  induction m with
  | zero =>
    apply List.ext_getElem
    · simp
    · intro i h1 h2
      have hi : i < bs.length := by simpa using h1
      simp [List.getD_eq_getElem?_getD, List.getElem?_eq_getElem hi]
  | succ m ih =>
    rw [List.range_succ, List.foldl_append, ih (by omega)]
    apply List.ext_getElem
    · simp
    · intro i h1 h2
      simp only [List.foldl_cons, List.foldl_nil, List.length_set, List.length_map,
        List.length_range] at h1
      simp only [List.foldl_cons, List.foldl_nil, List.getElem_set, List.getElem_map,
        List.getElem_range]
      by_cases him : m = i
      · subst him
        simp
      · simp only [him, if_false]
        have : (i < m + 1) = (i < m) := by
          apply propext
          constructor <;> intro h <;> omega
        simp only [this]

theorem foldl_set_getD {α : Type} (f : ℕ → α) (d : α) (m : ℕ) (bs : List α)
    (hm : m ≤ bs.length) (i : ℕ) :
    ((List.range m).foldl (fun bs b => bs.set b (f b)) bs).getD i d =
      if i < m then f i else bs.getD i d := by
  rw [foldl_set_range f d m bs hm, List.getD_eq_getElem?_getD]
  by_cases hi : i < bs.length
  · rw [List.getElem?_eq_getElem (by simpa using hi)]
    simp
  · rw [List.getElem?_eq_none (by simpa using hi)]
    have him : ¬ i < m := by omega
    rw [if_neg him, List.getD_eq_getElem?_getD, List.getElem?_eq_none (by omega)]

theorem preNormalized_of_le (sr : Int) (spectrum : List ℂ) (binSize : ℝ) (b : ℕ)
    (hb : 8 ≤ b) : preNormalized (VoiceFFTProcessor.new sr) spectrum binSize b = 0 := by
  unfold preNormalized
  have : ¬ b < (VoiceFFTProcessor.new sr).voiceBandRanges.length := by
    show ¬ b < 8
    omega
  rw [if_neg this]

theorem bandLoop_new (sr : Int) (spectrum : List ℂ) (binSize : ℝ) (n : ℕ) (hn : 8 ≤ n) :
    ∃ st, bandLoop (VoiceFFTProcessor.new sr) spectrum binSize n = .ok st ∧
      st.bands = (List.range n).map (preNormalized (VoiceFFTProcessor.new sr) spectrum binSize) ∧
      st.totalEnergy =
        ((List.range 8).map (preNormalized (VoiceFFTProcessor.new sr) spectrum binSize)).sum := by
  obtain ⟨st, h1, h2, h3⟩ := foldlM_bandStep (VoiceFFTProcessor.new sr) spectrum binSize
    (List.range 8) ⟨List.replicate n 0, List.replicate 3 0, 0⟩ (by
      intro b hb
      rw [List.mem_range] at hb
      constructor
      · simp only [List.length_replicate]; omega
      · exact hb)
  refine ⟨st, h1, ?_, ?_⟩
  · rw [h2, foldl_set_range _ 0 8 _ (by simp only [List.length_replicate]; exact hn)]
    simp only [List.length_replicate]
    apply List.map_congr_left
    intro i hi
    rw [List.mem_range] at hi
    by_cases h8 : i < 8
    · rw [if_pos h8]
    · rw [if_neg h8, preNormalized_of_le sr spectrum binSize i (by omega)]
      simp [List.getD_eq_getElem?_getD, hi]
  · rw [h3]; simp

theorem foldlM_bandStep_fault (p : VoiceFFTProcessor) (spectrum : List ℂ) (binSize : ℝ)
    (l : List ℕ) (st : BandLoop) (hl : ∃ b ∈ l, st.bands.length ≤ b) :
    l.foldlM (bandStep p spectrum binSize) st = .error .outOfBounds := by
  induction l generalizing st with
  | nil => simp at hl
  | cons b l ih =>
    rw [List.foldlM_cons]
    by_cases hb : b < st.bands.length
    · have hstep : ∃ st', bandStep p spectrum binSize st b = .ok st' ∧
          st'.bands.length = st.bands.length := by
        unfold bandStep
        simp only [hb, if_true]
        exact ⟨_, rfl, by simp⟩
      obtain ⟨st', hs, hlen⟩ := hstep
      rw [hs]
      apply ih st'
      obtain ⟨c, hc, hcl⟩ := hl
      rcases List.mem_cons.mp hc with rfl | hc'
      · omega
      · exact ⟨c, hc', by omega⟩
    · have hstep : bandStep p spectrum binSize st b = .error .outOfBounds := by
        unfold bandStep
        simp only [hb, if_false]
      rw [hstep]
      rfl

theorem bandLoop_fault (sr : Int) (spectrum : List ℂ) (binSize : ℝ) (n : ℕ) (hn : n < 8) :
    bandLoop (VoiceFFTProcessor.new sr) spectrum binSize n = .error .outOfBounds := by
  apply foldlM_bandStep_fault
  refine ⟨7, ?_, ?_⟩
  · show 7 ∈ List.range 8
    simp
  · simp only [List.length_replicate]; omega

theorem maxElement_mem (x : ℝ) (rest : List ℝ) : maxElement x rest ∈ x :: rest := by
  unfold maxElement
  induction rest generalizing x with
  | nil => simp
  | cons y rest ih =>
    rw [List.foldl_cons]
    by_cases h : x < y
    · rw [if_pos h]
      exact List.mem_cons_of_mem _ (ih y)
    · rw [if_neg h]
      rcases List.mem_cons.mp (ih x) with h1 | h1
      · rw [h1]; exact List.mem_cons_self _ _
      · exact List.mem_cons_of_mem _ (List.mem_cons_of_mem _ h1)

theorem le_maxElement (x : ℝ) (rest : List ℝ) : ∀ y ∈ x :: rest, y ≤ maxElement x rest := by
  unfold maxElement
  induction rest generalizing x with
  | nil => simp
  | cons z rest ih =>
    intro y hy
    rw [List.foldl_cons]
    by_cases h : x < z
    · rw [if_pos h]
      rcases List.mem_cons.mp hy with h1 | h1
      · rw [h1]
        exact le_trans (le_of_lt h) (ih z z (List.mem_cons_self _ _))
      · exact ih z y h1
    · rw [if_neg h]
      rcases List.mem_cons.mp hy with h1 | h1
      · rw [h1]
        exact ih x x (List.mem_cons_self _ _)
      · rcases List.mem_cons.mp h1 with h2 | h2
        · rw [h2]
          exact le_trans (not_lt.mp h) (ih x x (List.mem_cons_self _ _))
        · exact ih x y (List.mem_cons_of_mem _ h2)

theorem normalize_pos (t : ℝ) (ht : 0 < t) (l : List ℝ) (hl : l ≠ []) :
    ∃ m, m ∈ l ∧ (∀ y ∈ l, y ≤ m) ∧
      normalize t l = .ok (l.map fun band => (band / m) ^ (0.7 : ℝ)) := by
  cases l with
  | nil => exact absurd rfl hl
  | cons x rest =>
    refine ⟨maxElement x rest, maxElement_mem x rest, le_maxElement x rest, ?_⟩
    unfold normalize
    rw [if_pos ht]

theorem totalOf_nonneg (sr : Int) (spectrum : List ℂ) (binSize : ℝ) :
    0 ≤ totalOf (VoiceFFTProcessor.new sr) spectrum binSize := by
  unfold totalOf
  apply List.sum_nonneg
  intro x hx
  rw [List.mem_map] at hx
  obtain ⟨b, _, rfl⟩ := hx
  exact preNormalized_nonneg sr spectrum binSize b

theorem preNormalized_le_totalOf (sr : Int) (spectrum : List ℂ) (binSize : ℝ) (b : ℕ) :
    preNormalized (VoiceFFTProcessor.new sr) spectrum binSize b ≤
      totalOf (VoiceFFTProcessor.new sr) spectrum binSize := by
  by_cases hb : b < 8
  · unfold totalOf
    apply List.single_le_sum
    · intro x hx
      rw [List.mem_map] at hx
      obtain ⟨c, _, rfl⟩ := hx
      exact preNormalized_nonneg sr spectrum binSize c
    · rw [List.mem_map]
      exact ⟨b, List.mem_range.mpr hb, rfl⟩
  · rw [preNormalized_of_le sr spectrum binSize b (by omega)]
    exact totalOf_nonneg sr spectrum binSize

theorem processSpectralData_zero (sr : Int) (spectrum : List ℂ) (binSize : ℝ)
    (numBands : Int) (hn : 8 ≤ numBands)
    (h0 : totalOf (VoiceFFTProcessor.new sr) spectrum binSize = 0) :
    (VoiceFFTProcessor.new sr).processSpectralData spectrum binSize numBands =
      .ok ⟨0, List.replicate numBands.toNat 0⟩ := by
  obtain ⟨st, h1, h2, h3⟩ := bandLoop_new sr spectrum binSize numBands.toNat (by omega)
  have ht : st.totalEnergy = 0 := by rw [h3]; exact h0
  have hb : st.bands = List.replicate numBands.toNat 0 := by
    rw [h2]
    apply List.ext_getElem
    · simp
    · intro i hi1 hi2
      simp only [List.getElem_map, List.getElem_range, List.getElem_replicate]
      apply le_antisymm
      · rw [← h0]; exact preNormalized_le_totalOf sr spectrum binSize i
      · exact preNormalized_nonneg sr spectrum binSize i
  unfold VoiceFFTProcessor.processSpectralData
  rw [if_neg (by omega), h1]
  simp only [ht, hb]
  unfold normalize
  rw [if_neg (lt_irrefl 0)]

theorem processSpectralData_pos (sr : Int) (spectrum : List ℂ) (binSize : ℝ)
    (numBands : Int) (hn : 8 ≤ numBands)
    (h0 : totalOf (VoiceFFTProcessor.new sr) spectrum binSize ≠ 0) :
    ∃ m, 0 < m ∧
      (∃ b, b < 8 ∧ preNormalized (VoiceFFTProcessor.new sr) spectrum binSize b = m) ∧
      (∀ b, preNormalized (VoiceFFTProcessor.new sr) spectrum binSize b ≤ m) ∧
      (VoiceFFTProcessor.new sr).processSpectralData spectrum binSize numBands =
        .ok ⟨totalOf (VoiceFFTProcessor.new sr) spectrum binSize,
          (List.range numBands.toNat).map fun b =>
            (preNormalized (VoiceFFTProcessor.new sr) spectrum binSize b / m) ^ (0.7 : ℝ)⟩ := by
  obtain ⟨st, h1, h2, h3⟩ := bandLoop_new sr spectrum binSize numBands.toNat (by omega)
  have ht : st.totalEnergy = totalOf (VoiceFFTProcessor.new sr) spectrum binSize := h3
  have hpos : 0 < st.totalEnergy := by
    rw [ht]
    exact lt_of_le_of_ne (totalOf_nonneg sr spectrum binSize) (Ne.symm h0)
  have hne : st.bands ≠ [] := by
    intro hnil
    have hlen : st.bands.length = numBands.toNat := by rw [h2]; simp
    rw [hnil] at hlen
    simp only [List.length_nil] at hlen
    omega
  obtain ⟨m, hm1, hm2, hm3⟩ := normalize_pos st.totalEnergy hpos st.bands hne
  have hmem : ∀ b, b < numBands.toNat →
      preNormalized (VoiceFFTProcessor.new sr) spectrum binSize b ∈ st.bands := by
    intro b hb
    rw [h2, List.mem_map]
    exact ⟨b, List.mem_range.mpr hb, rfl⟩
  have hle : ∀ b, preNormalized (VoiceFFTProcessor.new sr) spectrum binSize b ≤ m := by
    intro b
    by_cases hb : b < numBands.toNat
    · exact hm2 _ (hmem b hb)
    · rw [preNormalized_of_le sr spectrum binSize b (by omega)]
      have := hm2 _ (hmem 0 (by omega))
      exact le_trans (preNormalized_nonneg sr spectrum binSize 0) this
  have hmpos : 0 < m := by
    by_contra hcon
    have hm0 : m ≤ 0 := not_lt.mp hcon
    have hall : ∀ x ∈ (List.range 8).map
        (preNormalized (VoiceFFTProcessor.new sr) spectrum binSize), x = 0 := by
      intro x hx
      rw [List.mem_map] at hx
      obtain ⟨b, _, rfl⟩ := hx
      exact le_antisymm (le_trans (hle b) hm0) (preNormalized_nonneg sr spectrum binSize b)
    apply h0
    unfold totalOf
    exact List.sum_eq_zero hall
  have hex : ∃ b, b < 8 ∧ preNormalized (VoiceFFTProcessor.new sr) spectrum binSize b = m := by
    rw [h2, List.mem_map] at hm1
    obtain ⟨b, _, hb⟩ := hm1
    by_cases h8 : b < 8
    · exact ⟨b, h8, hb⟩
    · rw [preNormalized_of_le sr spectrum binSize b (by omega)] at hb
      rw [← hb] at hmpos
      exact absurd hmpos (lt_irrefl 0)
  refine ⟨m, hmpos, hex, hle, ?_⟩
  unfold VoiceFFTProcessor.processSpectralData
  rw [if_neg (by omega), h1]
  dsimp only
  rw [hm3]
  dsimp only
  rw [ht, h2, List.map_map]
  rfl

theorem processSpectralData_ok (sr : Int) (spectrum : List ℂ) (binSize : ℝ)
    (numBands : Int) (hn : 8 ≤ numBands) :
    ∃ r, (VoiceFFTProcessor.new sr).processSpectralData spectrum binSize numBands = .ok r ∧
      r.volume = totalOf (VoiceFFTProcessor.new sr) spectrum binSize ∧
      r.spectrum.length = numBands.toNat := by
  by_cases h0 : totalOf (VoiceFFTProcessor.new sr) spectrum binSize = 0
  · exact ⟨_, processSpectralData_zero sr spectrum binSize numBands hn h0, h0.symm, by simp⟩
  · obtain ⟨m, _, _, _, hr⟩ := processSpectralData_pos sr spectrum binSize numBands hn h0
    exact ⟨_, hr, rfl, by simp⟩

theorem bandMagnitudeSum_pos (spectrum : List ℂ) (binSize lo hi : ℝ) (i : ℕ)
    (hi1 : i < spectrum.length) (hlo : lo ≤ (i : ℝ) * binSize) (hhi : (i : ℝ) * binSize ≤ hi)
    (hne : spectrum.getD i 0 ≠ 0) : 0 < bandMagnitudeSum spectrum binSize lo hi := by
  unfold bandMagnitudeSum
  have hterm : 0 < Complex.abs (spectrum.getD i 0) := AbsoluteValue.pos _ hne
  apply lt_of_lt_of_le hterm
  have hmem : Complex.abs (spectrum.getD i 0) ∈ (List.range spectrum.length).map
      (fun (i : ℕ) => if lo ≤ (i : ℝ) * binSize ∧ (i : ℝ) * binSize ≤ hi then
        Complex.abs (spectrum.getD i 0) else 0) := by
    rw [List.mem_map]
    exact ⟨i, List.mem_range.mpr hi1, by rw [if_pos ⟨hlo, hhi⟩]⟩
  apply List.single_le_sum _ _ hmem
  intro x hx
  rw [List.mem_map] at hx
  obtain ⟨j, _, rfl⟩ := hx
  split
  · exact AbsoluteValue.nonneg _ _
  · exact le_refl 0

theorem bandMagnitudeSum_eq_zero (spectrum : List ℂ) (binSize lo hi : ℝ)
    (h : ∀ i, i < spectrum.length → lo ≤ (i : ℝ) * binSize → (i : ℝ) * binSize ≤ hi →
      spectrum.getD i 0 = 0) : bandMagnitudeSum spectrum binSize lo hi = 0 := by
  unfold bandMagnitudeSum
  apply List.sum_eq_zero
  intro x hx
  rw [List.mem_map] at hx
  obtain ⟨j, hj, rfl⟩ := hx
  split
  · rename_i hr
    rw [h j (List.mem_range.mp hj) hr.1 hr.2]
    simp
  · rfl

theorem gain_pos (sr : Int) (b : ℕ) (hb : b < 8) :
    0 < (VoiceFFTProcessor.new sr).bandAmplification.getD b 0 := by
  interval_cases b <;> simp [VoiceFFTProcessor.new] <;> norm_num

theorem totalOf_pos_of_bin (sr : Int) (spectrum : List ℂ) (binSize : ℝ) (b i : ℕ)
    (hb : b < 8) (hi1 : i < spectrum.length)
    (hlo : ((VoiceFFTProcessor.new sr).voiceBandRanges.getD b (0, 0)).1 ≤ (i : ℝ) * binSize)
    (hhi : (i : ℝ) * binSize ≤ ((VoiceFFTProcessor.new sr).voiceBandRanges.getD b (0, 0)).2)
    (hne : spectrum.getD i 0 ≠ 0) :
    0 < totalOf (VoiceFFTProcessor.new sr) spectrum binSize := by
  apply lt_of_lt_of_le _ (preNormalized_le_totalOf sr spectrum binSize b)
  unfold preNormalized
  rw [if_pos (show b < (VoiceFFTProcessor.new sr).voiceBandRanges.length from hb)]
  exact mul_pos (bandMagnitudeSum_pos spectrum binSize _ _ i hi1 hlo hhi hne) (gain_pos sr b hb)

theorem sample_totalOf_pos (sr : Int) :
    0 < totalOf (VoiceFFTProcessor.new sr) [0, 0, 0, 2] 50 := by
  apply totalOf_pos_of_bin sr [0, 0, 0, 2] 50 0 3 (by norm_num) (by simp)
  · simp [VoiceFFTProcessor.new]; norm_num
  · simp [VoiceFFTProcessor.new]; norm_num
  · simp

theorem band_ranges_disjoint (sr : Int) (b k : ℕ) (hb : b < 8) (hk : k < 8) (hne : k ≠ b)
    (x : ℝ)
    (h1 : ((VoiceFFTProcessor.new sr).voiceBandRanges.getD k (0, 0)).1 ≤ x)
    (h2 : x ≤ ((VoiceFFTProcessor.new sr).voiceBandRanges.getD k (0, 0)).2)
    (h3 : ((VoiceFFTProcessor.new sr).voiceBandRanges.getD b (0, 0)).1 ≤ x)
    (h4 : x ≤ ((VoiceFFTProcessor.new sr).voiceBandRanges.getD b (0, 0)).2) : False := by
  interval_cases b <;> interval_cases k <;>
    simp [VoiceFFTProcessor.new] at h1 h2 h3 h4 hne <;> linarith

theorem sum_range_eight_single (f : ℕ → ℝ) (b : ℕ) (hb : b < 8)
    (h : ∀ k, k ≠ b → f k = 0) : ((List.range 8).map f).sum = f b := by
  have h8 : List.range 8 = [0, 1, 2, 3, 4, 5, 6, 7] := by decide
  rw [h8]
  simp only [List.map_cons, List.map_nil, List.sum_cons, List.sum_nil]
  interval_cases b
  · rw [h 1 (by omega), h 2 (by omega), h 3 (by omega), h 4 (by omega), h 5 (by omega),
      h 6 (by omega), h 7 (by omega)]; ring
  · rw [h 0 (by omega), h 2 (by omega), h 3 (by omega), h 4 (by omega), h 5 (by omega),
      h 6 (by omega), h 7 (by omega)]; ring
  · rw [h 0 (by omega), h 1 (by omega), h 3 (by omega), h 4 (by omega), h 5 (by omega),
      h 6 (by omega), h 7 (by omega)]; ring
  · rw [h 0 (by omega), h 1 (by omega), h 2 (by omega), h 4 (by omega), h 5 (by omega),
      h 6 (by omega), h 7 (by omega)]; ring
  · rw [h 0 (by omega), h 1 (by omega), h 2 (by omega), h 3 (by omega), h 5 (by omega),
      h 6 (by omega), h 7 (by omega)]; ring
  · rw [h 0 (by omega), h 1 (by omega), h 2 (by omega), h 3 (by omega), h 4 (by omega),
      h 6 (by omega), h 7 (by omega)]; ring
  · rw [h 0 (by omega), h 1 (by omega), h 2 (by omega), h 3 (by omega), h 4 (by omega),
      h 5 (by omega), h 7 (by omega)]; ring
  · rw [h 0 (by omega), h 1 (by omega), h 2 (by omega), h 3 (by omega), h 4 (by omega),
      h 5 (by omega), h 6 (by omega)]; ring

theorem getD_zero_of_all_zero (spectrum : List ℂ) (h : ∀ z ∈ spectrum, z = 0) (i : ℕ) :
    spectrum.getD i 0 = 0 := by
  rw [List.getD_eq_getElem?_getD]
  by_cases hi : i < spectrum.length
  · rw [List.getElem?_eq_getElem hi]
    exact h _ (List.getElem_mem hi)
  · rw [List.getElem?_eq_none (by omega)]
    rfl

theorem totalOf_all_zero (sr : Int) (spectrum : List ℂ) (binSize : ℝ)
    (h : ∀ z ∈ spectrum, z = 0) : totalOf (VoiceFFTProcessor.new sr) spectrum binSize = 0 := by
  unfold totalOf
  apply List.sum_eq_zero
  intro x hx
  rw [List.mem_map] at hx
  obtain ⟨b, _, rfl⟩ := hx
  unfold preNormalized
  split
  · rw [bandMagnitudeSum_eq_zero, zero_mul]
    intro i _ _ _
    exact getD_zero_of_all_zero spectrum h i
  · rfl

theorem complexArray_all_zero (fftData : List Int) (n : ℕ) (h : ∀ b ∈ fftData, b = 0) :
    ∀ z ∈ complexArray fftData n, z = 0 := by
  have hget : ∀ j, fftData.getD j 0 = 0 := by
    intro j
    rw [List.getD_eq_getElem?_getD]
    by_cases hj : j < fftData.length
    · rw [List.getElem?_eq_getElem hj]
      exact h _ (List.getElem_mem hj)
    · rw [List.getElem?_eq_none (by omega)]
      rfl
  intro z hz
  unfold complexArray at hz
  rw [List.mem_map] at hz
  obtain ⟨i, _, rfl⟩ := hz
  rw [hget, hget]
  simp [byteValue]
  rfl

theorem processFFT_eq (sr : Int) (fftData : List Int) (numBands : Int)
    (hne : fftData ≠ []) (hn : 8 ≤ numBands) :
    (VoiceFFTProcessor.new sr).processFFT fftData numBands =
      (VoiceFFTProcessor.new sr).processSpectralData
        (complexArray fftData (fftData.length / 2))
        ((sr : ℝ) / ((fftData.length / 2 * 2 : ℕ) : ℝ)) numBands := by
  obtain ⟨r, hr, _⟩ := processSpectralData_ok sr (complexArray fftData (fftData.length / 2))
    ((sr : ℝ) / ((fftData.length / 2 * 2 : ℕ) : ℝ)) numBands hn
  unfold VoiceFFTProcessor.processFFT
  have hemp : fftData.isEmpty = false := by
    cases fftData with
    | nil => exact absurd rfl hne
    | cons _ _ => rfl
  rw [hemp]
  simp only [Bool.false_eq_true, if_false]
  have hsr : (VoiceFFTProcessor.new sr).sampleRate = sr := rfl
  rw [hsr, hr]

theorem getD_dropLast (l : List Int) (j : ℕ) (hj : j < l.length - 1) :
    l.dropLast.getD j 0 = l.getD j 0 := by
  rw [List.getD_eq_getElem?_getD, List.getD_eq_getElem?_getD, List.getElem?_dropLast,
    if_pos hj]

theorem complexArray_dropLast (fftData : List Int) (n : ℕ) (hn : n * 2 ≤ fftData.length - 1) :
    complexArray fftData.dropLast n = complexArray fftData n := by
  unfold complexArray
  apply List.map_congr_left
  intro i hi
  rw [List.mem_range] at hi
  rw [getD_dropLast fftData (i * 2) (by omega), getD_dropLast fftData (i * 2 + 1) (by omega)]

theorem processFFT_odd (sr : Int) (fftData : List Int) (numBands : Int)
    (hodd : fftData.length % 2 = 1) (hn : 8 ≤ numBands) :
    (VoiceFFTProcessor.new sr).processFFT fftData numBands =
      (VoiceFFTProcessor.new sr).processFFT fftData.dropLast numBands := by
  have hne : fftData ≠ [] := by
    intro h
    rw [h] at hodd
    simp at hodd
  rw [processFFT_eq sr fftData numBands hne hn]
  by_cases h1 : fftData.length = 1
  · have hd : fftData.dropLast = [] := by
      apply List.eq_nil_of_length_eq_zero
      rw [List.length_dropLast, h1]
    rw [hd, h1]
    have hc : complexArray fftData (1 / 2) = [] := rfl
    rw [hc]
    rw [processSpectralData_zero sr [] _ numBands hn (totalOf_all_zero sr [] _ (by simp))]
    unfold VoiceFFTProcessor.processFFT zeroResult
    simp only [List.isEmpty_nil, if_true]
    rw [if_neg (by omega)]
  · have hne2 : fftData.dropLast ≠ [] := by
      intro h
      have := congrArg List.length h
      rw [List.length_dropLast] at this
      simp only [List.length_nil] at this
      omega
    rw [processFFT_eq sr fftData.dropLast numBands hne2 hn, List.length_dropLast]
    have hhalf : (fftData.length - 1) / 2 = fftData.length / 2 := by omega
    rw [hhalf, complexArray_dropLast fftData _ (by omega)]

theorem processFFT_energy_of_byte4 (fftData : List Int) (hlen : fftData.length = 201)
    (h4 : fftData.getD 4 0 = 1) :
    ¬ ((VoiceFFTProcessor.new 16000).processFFT fftData 8 =
      .ok ⟨0, [0, 0, 0, 0, 0, 0, 0, 0]⟩) := by
  intro h
  have hne : fftData ≠ [] := by
    intro hnil
    rw [hnil] at hlen
    simp at hlen
  rw [processFFT_eq 16000 fftData 8 hne (le_refl 8), hlen] at h
  obtain ⟨r, hr, hv, _⟩ := processSpectralData_ok 16000 (complexArray fftData (201 / 2))
    (((16000 : Int) : ℝ) / ((201 / 2 * 2 : ℕ) : ℝ)) 8 (le_refl 8)
  rw [hr] at h
  have hvol : r.volume = 0 := by
    rw [Except.ok.inj h]
  have hpos := totalOf_pos_of_bin 16000 (complexArray fftData (201 / 2))
    (((16000 : Int) : ℝ) / ((201 / 2 * 2 : ℕ) : ℝ)) 0 2 (by norm_num)
    (by simp [complexArray])
    (by simp [VoiceFFTProcessor.new]; norm_num)
    (by simp [VoiceFFTProcessor.new]; norm_num)
    (by
      intro hz
      have hre := congrArg Complex.re hz
      simp [complexArray, List.getD_eq_getElem?_getD, byteValue] at hre
      rw [List.getD_eq_getElem?_getD] at h4
      rw [h4] at hre
      omega)
  rw [hv] at hvol
  exact absurd hvol (ne_of_gt hpos)

/-! ## Lemmas on the power-of-two test -/

theorem and_pred_eq_zero_imp (n : ℕ) : 0 < n → n &&& (n - 1) = 0 → ∃ k : ℕ, n = 2 ^ k := by
  induction n using Nat.strong_induction_on with
  | _ n ih =>
    intro hpos h
    have hdiv : n / 2 &&& (n - 1) / 2 = 0 := by
      rw [← Nat.and_div_two, h]
    rcases Nat.even_or_odd n with he | ho
    · obtain ⟨m, hm⟩ := he
      have hm0 : 0 < m := by omega
      have h1 : n / 2 = m := by omega
      have h2 : (n - 1) / 2 = m - 1 := by omega
      rw [h1, h2] at hdiv
      obtain ⟨k, hk⟩ := ih m (by omega) hm0 hdiv
      exact ⟨k + 1, by rw [pow_succ, ← hk]; omega⟩
    · obtain ⟨m, hm⟩ := ho
      have h1 : n / 2 = m := by omega
      have h2 : (n - 1) / 2 = m := by omega
      rw [h1, h2, Nat.and_self] at hdiv
      exact ⟨0, by simp; omega⟩

theorem and_pred_eq_zero_iff (n : ℕ) (hn : 0 < n) :
    n &&& (n - 1) = 0 ↔ ∃ k : ℕ, n = 2 ^ k := by
  constructor
  · exact and_pred_eq_zero_imp n hn
  · rintro ⟨k, rfl⟩
    rw [Nat.and_pow_two_sub_one_eq_mod, Nat.mod_self]

theorem size_test_iff (size : Int) (hpos : 0 < size) :
    size.toNat &&& (size - 1).toNat = 0 ↔ ∃ k : ℕ, size = 2 ^ k := by
  have h1 : (size - 1).toNat = size.toNat - 1 := by omega
  rw [h1, and_pred_eq_zero_iff size.toNat (by omega)]
  constructor
  · rintro ⟨k, hk⟩
    refine ⟨k, ?_⟩
    have h2 : (size.toNat : Int) = size := Int.toNat_of_nonneg (le_of_lt hpos)
    rw [← h2, hk]
    push_cast
    rfl
  · rintro ⟨k, hk⟩
    refine ⟨k, ?_⟩
    rw [hk]
    have h3 : ((2 : Int) ^ k) = ((2 ^ k : ℕ) : Int) := by push_cast; rfl
    rw [h3, Int.toNat_natCast]

theorem createPlan_of_bad_size (heap : NewOutcome) (size : Int)
    (h : size ≤ 0 ∨ ¬ ∃ k : ℕ, size = 2 ^ k) :
    ∃ msg, createPlan heap size = ⟨0, some (.IllegalArgumentException, msg), none⟩ := by
  unfold createPlan
  by_cases h0 : size ≤ 0
  · exact ⟨_, by rw [if_pos h0]⟩
  · rw [if_neg h0]
    have hnp : ¬ ∃ k : ℕ, size = 2 ^ k := by
      rcases h with h | h
      · exact absurd h h0
      · exact h
    have hne : size.toNat &&& (size - 1).toNat ≠ 0 := by
      intro hz
      exact hnp ((size_test_iff size (by omega)).mp hz)
    exact ⟨_, by rw [if_pos hne]⟩

theorem createPlan_of_good_size (heap : NewOutcome) (size : Int) (hpos : 0 < size)
    (hk : ∃ k : ℕ, size = 2 ^ k) :
    createPlan heap size =
      match heap with
      | .allocated addr _ => ⟨addr, none, some (FFTPlan.new size)⟩
      | .badAlloc => ⟨0, some (.OutOfMemoryError, "Failed to allocate FFT plan"), none⟩
      | .otherException => ⟨0, some (.RuntimeException, "Failed to create FFT plan"), none⟩ := by
  unfold createPlan
  rw [if_neg (by omega), if_neg (by
    intro hne
    exact hne ((size_test_iff size hpos).mpr hk))]

/-! ## Lemmas on the transform natives -/

theorem forwardTransform_mismatch (env : JNIEnv) (planPtr : Int) (plan : FFTPlan)
    (hptr : planPtr ≠ 0) (a b c : List ℝ)
    (hbad : (a.length : Int) ≠ plan.size ∨ (b.length : Int) ≠ Int.tdiv plan.size 2 + 1 ∨
      (c.length : Int) ≠ Int.tdiv plan.size 2 + 1) :
    ∃ msg, forwardTransform env planPtr plan (some a) (some b) (some c) =
      ⟨plan, some a, some b, some c, some (.IllegalArgumentException, msg)⟩ := by
  unfold forwardTransform
  simp only [hptr, if_false]
  by_cases ha : (a.length : Int) ≠ plan.size
  · exact ⟨_, by rw [if_pos ha]⟩
  · rw [if_neg ha]
    have hbc : (b.length : Int) ≠ Int.tdiv plan.size 2 + 1 ∨
        (c.length : Int) ≠ Int.tdiv plan.size 2 + 1 := by
      rcases hbad with h | h
      · exact absurd h ha
      · exact h
    exact ⟨_, by rw [if_pos hbc]⟩

theorem inverseTransform_mismatch (env : JNIEnv) (planPtr : Int) (plan : FFTPlan)
    (hptr : planPtr ≠ 0) (a b c : List ℝ)
    (hbad : (a.length : Int) ≠ Int.tdiv plan.size 2 + 1 ∨
      (b.length : Int) ≠ Int.tdiv plan.size 2 + 1 ∨ (c.length : Int) ≠ plan.size) :
    ∃ msg, inverseTransform env planPtr plan (some a) (some b) (some c) =
      ⟨plan, some a, some b, some c, some (.IllegalArgumentException, msg)⟩ := by
  unfold inverseTransform
  simp only [hptr, if_false]
  by_cases hab : (a.length : Int) ≠ Int.tdiv plan.size 2 + 1 ∨
      (b.length : Int) ≠ Int.tdiv plan.size 2 + 1
  · exact ⟨_, by rw [if_pos hab]⟩
  · rw [if_neg hab]
    have hc : (c.length : Int) ≠ plan.size := by
      rcases hbad with h | h | h
      · exact absurd (Or.inl h) hab
      · exact absurd (Or.inr h) hab
      · exact h
    exact ⟨_, by rw [if_pos hc]⟩

theorem forwardTransform_ok (env : JNIEnv) (planPtr : Int) (plan : FFTPlan)
    (hptr : planPtr ≠ 0) (a b c : List ℝ)
    (ha : (a.length : Int) = plan.size) (hb : (b.length : Int) = Int.tdiv plan.size 2 + 1)
    (hc : (c.length : Int) = Int.tdiv plan.size 2 + 1)
    (h0 : env.pinned 0 = true) (h1 : env.pinned 1 = true) (h2 : env.pinned 2 = true) :
    forwardTransform env planPtr plan (some a) (some b) (some c) =
      ⟨{ plan with
          in_ := a.take plan.size.toNat ++ plan.in_.drop plan.size.toNat
          out := r2c plan.size.toNat true
              (a.take plan.size.toNat ++ plan.in_.drop plan.size.toNat) 1 ++
            plan.out.drop (plan.size.toNat / 2 + 1) },
        some a,
        some (polarLoop (r2c plan.size.toNat true
              (a.take plan.size.toNat ++ plan.in_.drop plan.size.toNat) 1 ++
            plan.out.drop (plan.size.toNat / 2 + 1)) (Int.tdiv plan.size 2 + 1).toNat b c).1,
        some (polarLoop (r2c plan.size.toNat true
              (a.take plan.size.toNat ++ plan.in_.drop plan.size.toNat) 1 ++
            plan.out.drop (plan.size.toNat / 2 + 1)) (Int.tdiv plan.size 2 + 1).toNat b c).2,
        none⟩ := by
  unfold forwardTransform
  simp [hptr, ha, hb, hc, h0, h1, h2]

theorem inverseTransform_ok (env : JNIEnv) (planPtr : Int) (plan : FFTPlan)
    (hptr : planPtr ≠ 0) (a b c : List ℝ)
    (ha : (a.length : Int) = Int.tdiv plan.size 2 + 1)
    (hb : (b.length : Int) = Int.tdiv plan.size 2 + 1) (hc : (c.length : Int) = plan.size)
    (h0 : env.pinned 0 = true) (h1 : env.pinned 1 = true) :
    inverseTransform env planPtr plan (some a) (some b) (some c) =
      ⟨{ plan with
          in_ := c2r plan.size.toNat false
              (cartesianLoop a b (Int.tdiv plan.size 2 + 1).toNat plan.out)
              (1 / (plan.size : ℝ)) ++ plan.in_.drop plan.size.toNat
          out := cartesianLoop a b (Int.tdiv plan.size 2 + 1).toNat plan.out },
        some a, some b,
        some ((c2r plan.size.toNat false
              (cartesianLoop a b (Int.tdiv plan.size 2 + 1).toNat plan.out)
              (1 / (plan.size : ℝ)) ++ plan.in_.drop plan.size.toNat).take plan.size.toNat ++
            c.drop plan.size.toNat),
        none⟩ := by
  unfold inverseTransform
  simp [hptr, ha, hb, hc, h0, h1]

/-! ## Lemmas on the transform primitive -/

theorem conj_root (n : ℕ) :
    (starRingEnd ℂ) (Complex.exp (2 * Real.pi * Complex.I / n))⁻¹ =
      Complex.exp (2 * Real.pi * Complex.I / n) := by
  rw [map_inv₀, ← Complex.exp_conj, ← Complex.exp_neg]
  congr 1
  have h2 : (starRingEnd ℂ) (2 : ℂ) = 2 := Complex.conj_ofNat 2
  simp only [map_div₀, map_mul, Complex.conj_ofReal, Complex.conj_I, map_natCast, h2]
  ring

theorem root_pow_mirror (n : ℕ) (hn : n ≠ 0) (j k : ℕ) (hk : k ≤ n) :
    Complex.exp (2 * Real.pi * Complex.I / n) ^ (j * (n - k)) =
      (Complex.exp (2 * Real.pi * Complex.I / n))⁻¹ ^ (j * k) := by
  have hprim := Complex.isPrimitiveRoot_exp n hn
  have hne : Complex.exp (2 * Real.pi * Complex.I / n) ≠ 0 := Complex.exp_ne_zero _
  rw [inv_pow]
  apply eq_inv_of_mul_eq_one_left
  rw [← pow_add]
  have : j * (n - k) + j * k = n * j := by
    rw [← Nat.mul_add, Nat.sub_add_cancel hk, Nat.mul_comm]
  rw [this, pow_mul, hprim.pow_eq_one, one_pow]

theorem orthogonality (n : ℕ) (hn : n ≠ 0) (j m : ℕ) (hj : j < n) (hm : m < n) :
    ∑ k ∈ Finset.range n, (Complex.exp (2 * Real.pi * Complex.I / n))⁻¹ ^ (m * k) *
        Complex.exp (2 * Real.pi * Complex.I / n) ^ (j * k) =
      if m = j then (n : ℂ) else 0 := by
  have hprim := Complex.isPrimitiveRoot_exp n hn
  have hne : Complex.exp (2 * Real.pi * Complex.I / n) ≠ 0 := Complex.exp_ne_zero _
  have hterm : ∀ k, (Complex.exp (2 * Real.pi * Complex.I / n))⁻¹ ^ (m * k) *
        Complex.exp (2 * Real.pi * Complex.I / n) ^ (j * k) =
      ((Complex.exp (2 * Real.pi * Complex.I / n))⁻¹ ^ m *
        Complex.exp (2 * Real.pi * Complex.I / n) ^ j) ^ k := by
    intro k
    rw [mul_pow, pow_mul, pow_mul]
  simp only [hterm]
  by_cases hmj : m = j
  · rw [if_pos hmj, hmj, inv_pow, inv_mul_cancel₀ (pow_ne_zero _ hne)]
    simp
  · rw [if_neg hmj]
    have hw1 : (Complex.exp (2 * Real.pi * Complex.I / n))⁻¹ ^ m *
        Complex.exp (2 * Real.pi * Complex.I / n) ^ j ≠ 1 := by
      intro h
      rw [inv_pow, inv_mul_eq_one₀ (pow_ne_zero _ hne)] at h
      exact hmj (hprim.pow_inj hm hj h)
    have hwn : ((Complex.exp (2 * Real.pi * Complex.I / n))⁻¹ ^ m *
        Complex.exp (2 * Real.pi * Complex.I / n) ^ j) ^ n = 1 := by
      rw [mul_pow, ← pow_mul, ← pow_mul, Nat.mul_comm m n, Nat.mul_comm j n, pow_mul, pow_mul,
        inv_pow, hprim.pow_eq_one, inv_one, one_pow, one_pow, one_mul]
    rw [geom_sum_eq hw1, hwn, sub_self, zero_div]

theorem hermitianBin_eq (n : ℕ) (hn : n ≠ 0) (S : List ℝ) (X : List ℂ)
    (hX : ∀ k, k ≤ n / 2 → X.getD k 0 =
      ∑ j ∈ Finset.range n, (S.getD j 0 : ℂ) *
        (Complex.exp (2 * Real.pi * Complex.I / n))⁻¹ ^ (j * k))
    (k : ℕ) (hk : k < n) :
    hermitianBin n X k =
      ∑ j ∈ Finset.range n, (S.getD j 0 : ℂ) *
        (Complex.exp (2 * Real.pi * Complex.I / n))⁻¹ ^ (j * k) := by
  unfold hermitianBin
  by_cases h2 : 2 * k ≤ n
  · rw [if_pos h2]
    exact hX k (by omega)
  · rw [if_neg h2, hX (n - k) (by omega), map_sum]
    apply Finset.sum_congr rfl
    intro j _
    rw [map_mul, Complex.conj_ofReal, map_pow, conj_root, root_pow_mirror n hn j k (by omega)]

theorem dft_inversion_sum (n : ℕ) (hn : n ≠ 0) (S : List ℝ) (j : ℕ) (hj : j < n) :
    ∑ k ∈ Finset.range n,
        (∑ m ∈ Finset.range n, (S.getD m 0 : ℂ) *
          (Complex.exp (2 * Real.pi * Complex.I / n))⁻¹ ^ (m * k)) *
        Complex.exp (2 * Real.pi * Complex.I / n) ^ (j * k) =
      (n : ℂ) * (S.getD j 0 : ℂ) := by
  simp only [Finset.sum_mul]
  rw [Finset.sum_comm]
  have hinner : ∀ m ∈ Finset.range n,
      ∑ k ∈ Finset.range n, (S.getD m 0 : ℂ) *
          (Complex.exp (2 * Real.pi * Complex.I / n))⁻¹ ^ (m * k) *
          Complex.exp (2 * Real.pi * Complex.I / n) ^ (j * k) =
        (S.getD m 0 : ℂ) * (if m = j then (n : ℂ) else 0) := by
    intro m hm
    rw [← orthogonality n hn j m hj (Finset.mem_range.mp hm), Finset.mul_sum]
    apply Finset.sum_congr rfl
    intro k _
    ring
  rw [Finset.sum_congr rfl hinner]
  rw [Finset.sum_eq_single j]
  · rw [if_pos rfl, mul_comm]
  · intro m _ hmj
    rw [if_neg hmj, mul_zero]
  · intro hnot
    exact absurd (Finset.mem_range.mpr hj) hnot

theorem c2r_inverts (n : ℕ) (hn : n ≠ 0) (S : List ℝ) (hS : S.length = n) (X : List ℂ)
    (hX : ∀ k, k ≤ n / 2 → X.getD k 0 =
      ∑ j ∈ Finset.range n, (S.getD j 0 : ℂ) *
        (Complex.exp (2 * Real.pi * Complex.I / n))⁻¹ ^ (j * k)) :
    c2r n false X (1 / (n : ℝ)) = S := by
  apply List.ext_getElem
  · simp [c2r, hS]
  · intro j h1 h2
    have hj : j < n := by rw [← hS]; exact h2
    unfold c2r
    rw [List.getElem_map, List.getElem_range]
    have hsum : ∑ k ∈ Finset.range n, (hermitianBin n X k * twiddle n false (j * k)).re =
        (n : ℝ) * S.getD j 0 := by
      rw [← Complex.re_sum]
      have hcongr : ∀ k ∈ Finset.range n, hermitianBin n X k * twiddle n false (j * k) =
          (∑ m ∈ Finset.range n, (S.getD m 0 : ℂ) *
            (Complex.exp (2 * Real.pi * Complex.I / n))⁻¹ ^ (m * k)) *
          Complex.exp (2 * Real.pi * Complex.I / n) ^ (j * k) := by
        intro k hk
        rw [hermitianBin_eq n hn S X hX k (Finset.mem_range.mp hk)]
        rfl
      rw [Finset.sum_congr rfl hcongr, dft_inversion_sum n hn S j hj]
      rw [← Complex.ofReal_natCast, ← Complex.ofReal_mul, Complex.ofReal_re]
    rw [hsum]
    have hn0 : (n : ℝ) ≠ 0 := Nat.cast_ne_zero.mpr hn
    rw [List.getD_eq_getElem?_getD, List.getElem?_eq_getElem h2, Option.getD_some]
    field_simp

/-! ## Lemmas on the round trip -/

theorem polar_eq (z : ℂ) :
    (⟨Complex.abs z * Real.cos (Complex.arg z),
      Complex.abs z * Real.sin (Complex.arg z)⟩ : ℂ) = z := by
  by_cases hz : z = 0
  · rw [hz]
    apply Complex.ext <;> simp
  · have habs : Complex.abs z ≠ 0 := (AbsoluteValue.ne_zero_iff _).mpr hz
    apply Complex.ext
    · show Complex.abs z * Real.cos (Complex.arg z) = z.re
      rw [Complex.cos_arg hz, mul_div_cancel₀ _ habs]
    · show Complex.abs z * Real.sin (Complex.arg z) = z.im
      rw [Complex.sin_arg, mul_div_cancel₀ _ habs]

theorem foldl_set_length {α : Type} (f : ℕ → α) (l : List ℕ) (bs : List α) :
    (l.foldl (fun bs b => bs.set b (f b)) bs).length = bs.length := by
  induction l generalizing bs with
  | nil => rfl
  | cons b l ih => rw [List.foldl_cons, ih, List.length_set]

theorem polarLoop_getD (out : List ℂ) (count : ℕ) (mag phase : List ℝ)
    (hm : count ≤ mag.length) (hp : count ≤ phase.length) (k : ℕ) (hk : k < count) :
    (polarLoop out count mag phase).1.getD k 0 = Complex.abs (out.getD k 0) ∧
    (polarLoop out count mag phase).2.getD k 0 = Complex.arg (out.getD k 0) := by
  unfold polarLoop
  dsimp only
  rw [foldl_set_getD _ 0 count mag hm, foldl_set_getD _ 0 count phase hp, if_pos hk, if_pos hk]
  exact ⟨rfl, rfl⟩

theorem cartesianLoop_getD (mag phase : List ℝ) (count : ℕ) (out : List ℂ)
    (ho : count ≤ out.length) (k : ℕ) (hk : k < count) :
    (cartesianLoop mag phase count out).getD k 0 =
      (⟨mag.getD k 0 * Real.cos (phase.getD k 0),
        mag.getD k 0 * Real.sin (phase.getD k 0)⟩ : ℂ) := by
  unfold cartesianLoop
  rw [foldl_set_getD _ 0 count out ho, if_pos hk]

theorem cartesianLoop_polarLoop_getD (bins out : List ℂ) (count : ℕ) (mag phase : List ℝ)
    (ho : count ≤ out.length) (hm : count ≤ mag.length) (hp : count ≤ phase.length)
    (k : ℕ) (hk : k < count) :
    (cartesianLoop (polarLoop bins count mag phase).1 (polarLoop bins count mag phase).2
      count out).getD k 0 = bins.getD k 0 := by
  rw [cartesianLoop_getD _ _ count out ho k hk,
    (polarLoop_getD bins count mag phase hm hp k hk).1,
    (polarLoop_getD bins count mag phase hm hp k hk).2, polar_eq]

theorem r2c_getD (n : ℕ) (data_in : List ℝ) (rest : List ℂ) (k : ℕ) (hk : k ≤ n / 2) :
    (r2c n true data_in 1 ++ rest).getD k 0 =
      ∑ j ∈ Finset.range n, (data_in.getD j 0 : ℂ) *
        (Complex.exp (2 * Real.pi * Complex.I / n))⁻¹ ^ (j * k) := by
  have hlen : k < (r2c n true data_in 1).length := by
    unfold r2c
    rw [List.length_map, List.length_range]
    omega
  rw [List.getD_eq_getElem?_getD, List.getElem?_append_left hlen,
    List.getElem?_eq_getElem hlen, Option.getD_some]
  unfold r2c
  rw [List.getElem_map, List.getElem_range, Complex.ofReal_one, one_mul]
  rfl

theorem take_append_getD (S rest : List ℝ) (n j : ℕ) (hS : S.length = n) (hj : j < n) :
    (S.take n ++ rest).getD j 0 = S.getD j 0 := by
  have ht : S.take n = S := by rw [← hS]; exact List.take_length S
  rw [ht, List.getD_eq_getElem?_getD, List.getD_eq_getElem?_getD,
    List.getElem?_append_left (by omega)]

/-! ## Lemmas on float32 rounding and the rounded normalization block -/

theorem roundHalfEven_bounds (q : ℝ) : ⌊q⌋ ≤ roundHalfEven q ∧ roundHalfEven q ≤ ⌊q⌋ + 1 := by
  unfold roundHalfEven
  split_ifs <;> constructor <;> omega

theorem roundHalfEven_of_lt (q : ℝ) (n : ℤ) (h1 : (n : ℝ) - 1 / 2 < q)
    (h2 : q < (n : ℝ) + 1 / 2) : roundHalfEven q = n := by
  unfold roundHalfEven
  by_cases hq : (n : ℝ) ≤ q
  · have hf : ⌊q⌋ = n := by
      rw [Int.floor_eq_iff]
      constructor
      · exact hq
      · linarith
    rw [hf, if_pos (by linarith)]
  · have hf : ⌊q⌋ = n - 1 := by
      rw [Int.floor_eq_iff]
      push_cast
      constructor <;> linarith
    rw [hf]
    push_cast
    rw [if_neg (by linarith), if_pos (by linarith)]
    ring

theorem roundHalfEven_tie_even (n : ℤ) (hn : Even n) :
    roundHalfEven ((n : ℝ) + 1 / 2) = n := by
  unfold roundHalfEven
  have hf : ⌊(n : ℝ) + 1 / 2⌋ = n := by
    rw [Int.floor_eq_iff]
    constructor <;> linarith
  rw [hf, if_neg (by linarith), if_neg (by linarith), if_pos hn]

theorem roundHalfEven_intCast (n : ℤ) : roundHalfEven (n : ℝ) = n :=
  roundHalfEven_of_lt _ n (by linarith) (by linarith)

theorem roundHalfEven_mono (q q' : ℝ) (h : q ≤ q') : roundHalfEven q ≤ roundHalfEven q' := by
  have hfl : ⌊q⌋ ≤ ⌊q'⌋ := Int.floor_mono h
  have hb := roundHalfEven_bounds q
  have hb' := roundHalfEven_bounds q'
  by_cases hlt : ⌊q⌋ < ⌊q'⌋
  · omega
  · have heq : ⌊q⌋ = ⌊q'⌋ := by omega
    have hfr : q - ⌊q⌋ ≤ q' - ⌊q'⌋ := by rw [heq]; linarith
    unfold roundHalfEven
    rw [← heq]
    by_cases h1 : q - ⌊q⌋ < 1 / 2
    · rw [if_pos h1]
      split_ifs <;> omega
    · rw [if_neg h1]
      by_cases h2 : 1 / 2 < q - ⌊q⌋
      · rw [if_pos h2, if_neg (by rw [heq]; linarith), if_pos (by rw [heq]; linarith)]
      · rw [if_neg h2]
        have h3 : q - ⌊q⌋ = 1 / 2 := by linarith
        by_cases h4 : q' - ↑⌊q⌋ < 1 / 2
        · exfalso
          rw [heq] at h3 h4
          rw [heq] at hfr
          linarith
        · rw [if_neg h4]
          split_ifs <;> omega

theorem log_two_eq (x : ℝ) (e : ℤ) (hlo : (2 : ℝ) ^ e ≤ x) (hhi : x < (2 : ℝ) ^ (e + 1)) :
    Int.log 2 |x| = e := by
  have hx : 0 < x := lt_of_lt_of_le (zpow_pos (by norm_num) e) hlo
  rw [abs_of_pos hx]
  have h1 : e ≤ Int.log 2 x := by
    rw [← Int.zpow_le_iff_le_log (by norm_num) hx]
    exact_mod_cast hlo
  have h2 : Int.log 2 x < e + 1 := by
    rw [← Int.lt_zpow_iff_log_lt (by norm_num) hx]
    exact_mod_cast hhi
  omega

theorem roundBinary_eval (p : ℕ) (emin : ℤ) (x : ℝ) (e n : ℤ) (hlo : (2 : ℝ) ^ e ≤ x)
    (hhi : x < (2 : ℝ) ^ (e + 1)) (he : emin ≤ e)
    (hq : roundHalfEven (x / (2 : ℝ) ^ (e - ((p : ℤ) - 1))) = n) :
    roundBinary p emin x = (n : ℝ) * (2 : ℝ) ^ (e - ((p : ℤ) - 1)) := by
  unfold roundBinary
  rw [log_two_eq x e hlo hhi, max_eq_left he, hq]

theorem roundBinary_zero (p : ℕ) (emin : ℤ) : roundBinary p emin 0 = 0 := by
  unfold roundBinary
  rw [zero_div]
  have h : roundHalfEven 0 = 0 := by
    have := roundHalfEven_intCast 0
    simpa using this
  rw [h]
  simp

theorem roundBinary_nonneg (p : ℕ) (emin : ℤ) (x : ℝ) (hx : 0 ≤ x) :
    0 ≤ roundBinary p emin x := by
  unfold roundBinary
  apply mul_nonneg _ (le_of_lt (zpow_pos (by norm_num) _))
  have h0 : roundHalfEven 0 = 0 := by
    have := roundHalfEven_intCast 0
    simpa using this
  have hq : (0 : ℝ) ≤ x / (2 : ℝ) ^ (max (Int.log 2 |x|) emin - ((p : ℤ) - 1)) :=
    div_nonneg hx (le_of_lt (zpow_pos (by norm_num) _))
  have := roundHalfEven_mono 0 _ hq
  rw [h0] at this
  exact_mod_cast this

theorem roundBinary_le_pow (p : ℕ) (emin : ℤ) (x : ℝ) (hx : 0 < x) :
    roundBinary p emin x ≤ (2 : ℝ) ^ (max (Int.log 2 |x|) emin + 1) := by
  unfold roundBinary
  have hu : (0 : ℝ) < (2 : ℝ) ^ (max (Int.log 2 |x|) emin - ((p : ℤ) - 1)) :=
    zpow_pos (by norm_num) _
  have hxlt : x < (2 : ℝ) ^ (max (Int.log 2 |x|) emin + 1) := by
    have h1 : x < (2 : ℝ) ^ (Int.log 2 |x| + 1) := by
      rw [abs_of_pos hx]
      have := Int.lt_zpow_succ_log_self (b := 2) (by norm_num) x
      exact_mod_cast this
    exact lt_of_lt_of_le h1 (zpow_le_zpow_right₀ (by norm_num) (by omega))
  have hsplit : (2 : ℝ) ^ (max (Int.log 2 |x|) emin + 1) =
      ((2 ^ p : ℤ) : ℝ) * (2 : ℝ) ^ (max (Int.log 2 |x|) emin - ((p : ℤ) - 1)) := by
    push_cast
    rw [← zpow_natCast, ← zpow_add₀ (by norm_num : (2 : ℝ) ≠ 0)]
    congr 1
    ring
  rw [hsplit]
  apply mul_le_mul_of_nonneg_right _ (le_of_lt hu)
  have hq : x / (2 : ℝ) ^ (max (Int.log 2 |x|) emin - ((p : ℤ) - 1)) ≤ ((2 ^ p : ℤ) : ℝ) := by
    rw [div_le_iff₀ hu, ← hsplit]
    exact le_of_lt hxlt
  have := roundHalfEven_mono _ _ hq
  rw [roundHalfEven_intCast] at this
  exact_mod_cast this

theorem pow_le_roundBinary (p : ℕ) (hp : 1 ≤ p) (emin : ℤ) (x : ℝ) (hx : 0 < x)
    (hlog : emin ≤ Int.log 2 |x|) :
    (2 : ℝ) ^ (Int.log 2 |x|) ≤ roundBinary p emin x := by
  unfold roundBinary
  rw [max_eq_left hlog]
  have hu : (0 : ℝ) < (2 : ℝ) ^ (Int.log 2 |x| - ((p : ℤ) - 1)) := zpow_pos (by norm_num) _
  have hxge : (2 : ℝ) ^ (Int.log 2 |x|) ≤ x := by
    rw [abs_of_pos hx]
    have := Int.zpow_log_le_self (b := 2) (by norm_num) hx
    exact_mod_cast this
  have hsplit : (2 : ℝ) ^ (Int.log 2 |x|) =
      ((2 ^ (p - 1) : ℤ) : ℝ) * (2 : ℝ) ^ (Int.log 2 |x| - ((p : ℤ) - 1)) := by
    push_cast
    rw [← zpow_natCast, ← zpow_add₀ (by norm_num : (2 : ℝ) ≠ 0)]
    congr 1
    have : ((p - 1 : ℕ) : ℤ) = (p : ℤ) - 1 := by omega
    rw [this]
    ring
  have hq : ((2 ^ (p - 1) : ℤ) : ℝ) ≤ x / (2 : ℝ) ^ (Int.log 2 |x| - ((p : ℤ) - 1)) := by
    rw [le_div_iff₀ hu, ← hsplit]
    exact hxge
  have := roundHalfEven_mono _ _ hq
  rw [roundHalfEven_intCast] at this
  calc (2 : ℝ) ^ (Int.log 2 |x|)
      = ((2 ^ (p - 1) : ℤ) : ℝ) * (2 : ℝ) ^ (Int.log 2 |x| - ((p : ℤ) - 1)) := hsplit
    _ ≤ _ := mul_le_mul_of_nonneg_right (by exact_mod_cast this) (le_of_lt hu)

theorem roundBinary_mono (p : ℕ) (hp : 1 ≤ p) (emin : ℤ) (x y : ℝ) (hx : 0 ≤ x)
    (hxy : x ≤ y) : roundBinary p emin x ≤ roundBinary p emin y := by
  rcases eq_or_lt_of_le hx with hx0 | hxpos
  · rw [← hx0, roundBinary_zero]
    exact roundBinary_nonneg p emin y (le_trans hx hxy)
  · have hypos : 0 < y := lt_of_lt_of_le hxpos hxy
    have hlog : Int.log 2 |x| ≤ Int.log 2 |y| := by
      rw [abs_of_pos hxpos, abs_of_pos hypos]
      exact Int.log_mono_right hxpos hxy
    by_cases hE : max (Int.log 2 |x|) emin = max (Int.log 2 |y|) emin
    · unfold roundBinary
      rw [hE]
      have hu : (0 : ℝ) < (2 : ℝ) ^ (max (Int.log 2 |y|) emin - ((p : ℤ) - 1)) :=
        zpow_pos (by norm_num) _
      apply mul_le_mul_of_nonneg_right _ (le_of_lt hu)
      have hq : x / (2 : ℝ) ^ (max (Int.log 2 |y|) emin - ((p : ℤ) - 1)) ≤
          y / (2 : ℝ) ^ (max (Int.log 2 |y|) emin - ((p : ℤ) - 1)) :=
        div_le_div_of_nonneg_right hxy (le_of_lt hu)
      exact_mod_cast roundHalfEven_mono _ _ hq
    · have hlt : max (Int.log 2 |x|) emin + 1 ≤ Int.log 2 |y| := by
        rw [max_def] at hE ⊢
        rw [max_def] at hE
        split_ifs at hE ⊢ <;> omega
      have hemin : emin ≤ Int.log 2 |y| := by
        have := le_max_right (Int.log 2 |x|) emin
        omega
      calc roundBinary p emin x ≤ (2 : ℝ) ^ (max (Int.log 2 |x|) emin + 1) :=
            roundBinary_le_pow p emin x hxpos
        _ ≤ (2 : ℝ) ^ (Int.log 2 |y|) := zpow_le_zpow_right₀ (by norm_num) hlt
        _ ≤ roundBinary p emin y := pow_le_roundBinary p hp emin y hypos hemin

theorem roundBinary_of_grid (p : ℕ) (hp : 1 ≤ p) (emin e n : ℤ) (he : emin ≤ e)
    (h1 : (2 : ℤ) ^ (p - 1) ≤ n) (h2 : n < (2 : ℤ) ^ p) :
    roundBinary p emin ((n : ℝ) * (2 : ℝ) ^ (e - ((p : ℤ) - 1))) =
      (n : ℝ) * (2 : ℝ) ^ (e - ((p : ℤ) - 1)) := by
  have hu : (0 : ℝ) < (2 : ℝ) ^ (e - ((p : ℤ) - 1)) := zpow_pos (by norm_num) _
  have hlow : (2 : ℝ) ^ e = ((2 ^ (p - 1) : ℤ) : ℝ) * (2 : ℝ) ^ (e - ((p : ℤ) - 1)) := by
    push_cast
    rw [← zpow_natCast, ← zpow_add₀ (by norm_num : (2 : ℝ) ≠ 0)]
    congr 1
    have : ((p - 1 : ℕ) : ℤ) = (p : ℤ) - 1 := by omega
    rw [this]
    ring
  have hhigh : (2 : ℝ) ^ (e + 1) = ((2 ^ p : ℤ) : ℝ) * (2 : ℝ) ^ (e - ((p : ℤ) - 1)) := by
    push_cast
    rw [← zpow_natCast, ← zpow_add₀ (by norm_num : (2 : ℝ) ≠ 0)]
    congr 1
    ring
  apply roundBinary_eval p emin _ e n _ _ he
  · rw [mul_div_assoc, div_self (ne_of_gt hu), mul_one, roundHalfEven_intCast]
  · rw [hlow]
    exact mul_le_mul_of_nonneg_right (by exact_mod_cast h1) (le_of_lt hu)
  · rw [hhigh]
    exact mul_lt_mul_of_pos_right (by exact_mod_cast h2) hu

theorem toFloat_zero : toFloat 0 = 0 := roundBinary_zero 24 (-126)

theorem toFloat_one : toFloat 1 = 1 := by
  have h := roundBinary_of_grid 24 (by norm_num) (-126) 0 8388608 (by norm_num)
    (by norm_num) (by norm_num)
  norm_num at h
  exact h

theorem toFloat_nonneg (x : ℝ) (hx : 0 ≤ x) : 0 ≤ toFloat x :=
  roundBinary_nonneg 24 (-126) x hx

theorem toFloat_mono (x y : ℝ) (hx : 0 ≤ x) (hxy : x ≤ y) : toFloat x ≤ toFloat y :=
  roundBinary_mono 24 (by norm_num) (-126) x y hx hxy

theorem toFloat_eval (x : ℝ) (e n : ℤ) (hlo : (2 : ℝ) ^ e ≤ x) (hhi : x < (2 : ℝ) ^ (e + 1))
    (he : -126 ≤ e) (hq : roundHalfEven (x / (2 : ℝ) ^ (e - 23)) = n) :
    toFloat x = (n : ℝ) * (2 : ℝ) ^ (e - 23) :=
  roundBinary_eval 24 (-126) x e n hlo hhi he hq

theorem toDouble_eval (x : ℝ) (e n : ℤ) (hlo : (2 : ℝ) ^ e ≤ x) (hhi : x < (2 : ℝ) ^ (e + 1))
    (he : -1022 ≤ e) (hq : roundHalfEven (x / (2 : ℝ) ^ (e - 52)) = n) :
    toDouble x = (n : ℝ) * (2 : ℝ) ^ (e - 52) :=
  roundBinary_eval 53 (-1022) x e n hlo hhi he hq

theorem amplificationF32_band0 (sr : Int) :
    amplificationF32 (VoiceFFTProcessor.new sr) 0 = 15099494 / 8388608 := by
  have hg : (VoiceFFTProcessor.new sr).bandAmplification.getD 0 0 = 1.8 := by
    simp [VoiceFFTProcessor.new]
  unfold amplificationF32
  rw [hg, toFloat_eval 1.8 0 15099494 (by norm_num) (by norm_num) (by norm_num)
    (roundHalfEven_of_lt _ _ (by norm_num) (by norm_num))]
  norm_num

theorem amplificationF32_band4 (sr : Int) :
    amplificationF32 (VoiceFFTProcessor.new sr) 4 = 10066330 / 8388608 := by
  have hg : (VoiceFFTProcessor.new sr).bandAmplification.getD 4 0 = 1.2 := by
    simp [VoiceFFTProcessor.new]
  unfold amplificationF32
  rw [hg, toFloat_eval 1.2 0 10066330 (by norm_num) (by norm_num) (by norm_num)
    (roundHalfEven_of_lt _ _ (by norm_num) (by norm_num))]
  norm_num

theorem amplificationF32_band6 (sr : Int) :
    amplificationF32 (VoiceFFTProcessor.new sr) 6 = 1 := by
  have hg : (VoiceFFTProcessor.new sr).bandAmplification.getD 6 0 = 1.0 := by
    simp [VoiceFFTProcessor.new]
  unfold amplificationF32
  rw [hg]
  norm_num
  exact toFloat_one

theorem bandValueF32_band0 (sr : Int) :
    bandValueF32 (VoiceFFTProcessor.new sr) 2 0 = 15099494 / 4194304 := by
  unfold bandValueF32
  rw [amplificationF32_band0,
    toDouble_eval (2 * (15099494 / 8388608)) 1 8106479114518528 (by norm_num) (by norm_num)
      (by norm_num) (roundHalfEven_of_lt _ _ (by norm_num) (by norm_num))]
  rw [toFloat_eval _ 1 15099494 (by norm_num) (by norm_num) (by norm_num)
    (roundHalfEven_of_lt _ _ (by norm_num) (by norm_num))]
  norm_num

theorem bandValueF32_band4 (sr : Int) :
    bandValueF32 (VoiceFFTProcessor.new sr) 3 4 = 15099495 / 4194304 := by
  unfold bandValueF32
  rw [amplificationF32_band4,
    toDouble_eval (3 * (10066330 / 8388608)) 1 8106479651389440 (by norm_num) (by norm_num)
      (by norm_num) (roundHalfEven_of_lt _ _ (by norm_num) (by norm_num))]
  rw [toFloat_eval _ 1 15099495 (by norm_num) (by norm_num) (by norm_num)
    (roundHalfEven_of_lt _ _ (by norm_num) (by norm_num))]
  norm_num

theorem bandValueF32_band6 (sr : Int) :
    bandValueF32 (VoiceFFTProcessor.new sr) 43 6 = 43 := by
  unfold bandValueF32
  rw [amplificationF32_band6,
    toDouble_eval (43 * 1) 5 6051711999279104 (by norm_num) (by norm_num)
      (by norm_num) (roundHalfEven_of_lt _ _ (by norm_num) (by norm_num))]
  rw [toFloat_eval _ 5 11272192 (by norm_num) (by norm_num) (by norm_num)
    (roundHalfEven_of_lt _ _ (by norm_num) (by norm_num))]
  norm_num

theorem sample_totalEnergyF32 :
    totalEnergyF32 [15099494 / 4194304, 0, 0, 0, 15099495 / 4194304, 0, 43, 0] =
      13159629 / 262144 := by
  have s1 : toFloat (15099494 / 4194304) = 15099494 / 4194304 := by
    rw [toFloat_eval _ 1 15099494 (by norm_num) (by norm_num) (by norm_num)
      (roundHalfEven_of_lt _ _ (by norm_num) (by norm_num))]
    norm_num
  have s2 : toFloat (15099494 / 4194304 + 15099495 / 4194304) = 15099494 / 2097152 := by
    have hq : (15099494 / 4194304 + 15099495 / 4194304 : ℝ) / (2 : ℝ) ^ ((2 : ℤ) - 23) =
        ((15099494 : ℤ) : ℝ) + 1 / 2 := by norm_num
    rw [toFloat_eval _ 2 15099494 (by norm_num) (by norm_num) (by norm_num)
      (by rw [hq]; exact roundHalfEven_tie_even _ (by decide))]
    norm_num
  have s3 : toFloat (15099494 / 2097152) = 15099494 / 2097152 := by
    rw [toFloat_eval _ 2 15099494 (by norm_num) (by norm_num) (by norm_num)
      (roundHalfEven_of_lt _ _ (by norm_num) (by norm_num))]
    norm_num
  have s4 : toFloat (15099494 / 2097152 + 43) = 13159629 / 262144 := by
    rw [toFloat_eval _ 5 13159629 (by norm_num) (by norm_num) (by norm_num)
      (roundHalfEven_of_lt _ _ (by norm_num) (by norm_num))]
    norm_num
  have s5 : toFloat (13159629 / 262144) = 13159629 / 262144 := by
    rw [toFloat_eval _ 5 13159629 (by norm_num) (by norm_num) (by norm_num)
      (roundHalfEven_of_lt _ _ (by norm_num) (by norm_num))]
    norm_num
  unfold totalEnergyF32
  simp only [List.foldl_cons, List.foldl_nil, zero_add, add_zero]
  rw [s1, s1, s1, s1, s2, s3, s4, s5]

theorem sample_maxElement :
    maxElement (15099494 / 4194304) [0, 0, 0, 15099495 / 4194304, 0, 43, 0] = 43 := by
  unfold maxElement
  simp only [List.foldl_cons, List.foldl_nil]
  norm_num

theorem sample_quotients :
    toFloat (15099494 / 4194304 / 43) = 11236833 / 134217728 ∧
    toFloat (15099495 / 4194304 / 43) = 11236833 / 134217728 := by
  constructor
  · rw [toFloat_eval _ (-4) 11236833 (by norm_num) (by norm_num) (by norm_num)
      (roundHalfEven_of_lt _ _ (by norm_num) (by norm_num))]
    norm_num
  · rw [toFloat_eval _ (-4) 11236833 (by norm_num) (by norm_num) (by norm_num)
      (roundHalfEven_of_lt _ _ (by norm_num) (by norm_num))]
    norm_num

theorem totalEnergyF32_zero (bands : List ℝ) (h : ∀ x ∈ bands, x = 0) :
    totalEnergyF32 bands = 0 := by
  unfold totalEnergyF32
  induction bands with
  | nil => rfl
  | cons x rest ih =>
    rw [List.foldl_cons, h x (List.mem_cons_self _ _), add_zero, toFloat_zero]
    exact ih (fun y hy => h y (List.mem_cons_of_mem _ hy))

theorem powfRounded_mono (x x' : ℝ) (hx : 0 ≤ x) (hxx : x ≤ x') :
    powfRounded x (toFloat 0.7) ≤ powfRounded x' (toFloat 0.7) := by
  unfold powfRounded
  exact toFloat_mono _ _ (Real.rpow_nonneg hx _)
    (Real.rpow_le_rpow hx hxx (toFloat_nonneg _ (by norm_num)))

theorem powfRounded_one (y : ℝ) : powfRounded 1 y = 1 := by
  unfold powfRounded
  rw [Real.one_rpow, toFloat_one]

/-! ## The claims -/

/-- C3: for `numBands >= 8` the extractor returns a result, and whenever the returned
`totalEnergy` is nonzero the returned band vector contains the value 1, every entry is at most
1 (so its maximum is exactly 1) and every entry is at least 0. -/
theorem normalized_bands_max_one (sr : Int) (spectrum : List ℂ) (binSize : ℝ)
    (numBands : Int) (hn : 8 ≤ numBands) :
    ∃ r, (VoiceFFTProcessor.new sr).processSpectralData spectrum binSize numBands = .ok r ∧
      (r.volume ≠ 0 → 1 ∈ r.spectrum ∧ ∀ y ∈ r.spectrum, 0 ≤ y ∧ y ≤ 1) := by
  by_cases h0 : totalOf (VoiceFFTProcessor.new sr) spectrum binSize = 0
  · refine ⟨_, processSpectralData_zero sr spectrum binSize numBands hn h0, ?_⟩
    intro hv
    exact absurd rfl hv
  · obtain ⟨m, hm, ⟨b, hb, hbm⟩, hle, hr⟩ :=
      processSpectralData_pos sr spectrum binSize numBands hn h0
    refine ⟨_, hr, ?_⟩
    intro _
    constructor
    · show (1 : ℝ) ∈ List.map _ _
      rw [List.mem_map]
      refine ⟨b, List.mem_range.mpr (by omega), ?_⟩
      rw [hbm, div_self (ne_of_gt hm), Real.one_rpow]
    · intro y hy
      change y ∈ List.map _ _ at hy
      rw [List.mem_map] at hy
      obtain ⟨c, _, rfl⟩ := hy
      have h1 : 0 ≤ preNormalized (VoiceFFTProcessor.new sr) spectrum binSize c / m :=
        div_nonneg (preNormalized_nonneg sr spectrum binSize c) (le_of_lt hm)
      have h2 : preNormalized (VoiceFFTProcessor.new sr) spectrum binSize c / m ≤ 1 :=
        (div_le_one hm).mpr (hle c)
      exact ⟨Real.rpow_nonneg h1 _, Real.rpow_le_one h1 h2 (by norm_num)⟩

/-- Witness of C3: a spectrum whose only nonzero bin lies at 150 Hz, analysed into 8 bands,
has nonzero `totalEnergy`, its largest band is 1 and all bands lie in `[0,1]`. -/
theorem normalized_bands_max_one_witness :
    (8 : Int) ≤ 8 ∧
    ∃ r, (VoiceFFTProcessor.new 16000).processSpectralData [0, 0, 0, 2] 50 8 = .ok r ∧
      r.volume ≠ 0 ∧ 1 ∈ r.spectrum ∧ ∀ y ∈ r.spectrum, 0 ≤ y ∧ y ≤ 1 := by
  refine ⟨by decide, ?_⟩
  obtain ⟨r, hr, hprop⟩ := normalized_bands_max_one 16000 [0, 0, 0, 2] 50 8 (by decide)
  obtain ⟨r', hr', hv, _⟩ := processSpectralData_ok 16000 [0, 0, 0, 2] 50 8 (by decide)
  have hrr : r = r' := by
    rw [hr] at hr'
    exact Except.ok.inj hr'
  have hvol : r.volume ≠ 0 := by
    rw [hrr, hv]
    exact ne_of_gt (sample_totalOf_pos 16000)
  exact ⟨r, hr, hvol, (hprop hvol).1, (hprop hvol).2⟩

/-- C9 (as stated, refuted): in the 200-byte stream at sample rate 16000 whose bytes 4, 40 and
64 are 2, 3 and 43 (all others 0), band 0 collects energy 2, band 4 energy 3 and band 6 energy
43. The band values the code stores are `float(2 * 1.8f) = 15099494 / 2^22` and
`float(3 * 1.2f) = 15099495 / 2^22`, strictly ordered, and the maximum 43. The float32
quotients by 43 are both `11236833 / 2^27`, so the two normalized bands are equal: the strict
inequality is not preserved. -/
theorem normalization_ties_distinct_bands :
    bandValueF32 (VoiceFFTProcessor.new 16000) 2 0 = 15099494 / 4194304 ∧
    bandValueF32 (VoiceFFTProcessor.new 16000) 3 4 = 15099495 / 4194304 ∧
    bandValueF32 (VoiceFFTProcessor.new 16000) 43 6 = 43 ∧
    bandValueF32 (VoiceFFTProcessor.new 16000) 2 0 <
      bandValueF32 (VoiceFFTProcessor.new 16000) 3 4 ∧
    ∃ out, normalizeF32 powfRounded
        (totalEnergyF32 [bandValueF32 (VoiceFFTProcessor.new 16000) 2 0, 0, 0, 0,
          bandValueF32 (VoiceFFTProcessor.new 16000) 3 4, 0,
          bandValueF32 (VoiceFFTProcessor.new 16000) 43 6, 0])
        [bandValueF32 (VoiceFFTProcessor.new 16000) 2 0, 0, 0, 0,
          bandValueF32 (VoiceFFTProcessor.new 16000) 3 4, 0,
          bandValueF32 (VoiceFFTProcessor.new 16000) 43 6, 0] = .ok out ∧
      out.getD 0 0 = out.getD 4 0 ∧ ¬ (out.getD 0 0 < out.getD 4 0) := by
  rw [bandValueF32_band0, bandValueF32_band4, bandValueF32_band6, sample_totalEnergyF32]
  refine ⟨rfl, rfl, rfl, by norm_num, ?_⟩
  have heq : powfRounded (toFloat (15099494 / 4194304 /
        maxElement (15099494 / 4194304) [0, 0, 0, 15099495 / 4194304, 0, 43, 0]))
        (toFloat 0.7) =
      powfRounded (toFloat (15099495 / 4194304 /
        maxElement (15099494 / 4194304) [0, 0, 0, 15099495 / 4194304, 0, 43, 0]))
        (toFloat 0.7) := by
    rw [sample_maxElement, sample_quotients.1, sample_quotients.2]
  refine ⟨_, by unfold normalizeF32; rw [if_pos (by norm_num)], ?_, ?_⟩
  · simp only [List.map_cons, List.getD_cons_zero, List.getD_cons_succ]
    exact heq
  · simp only [List.map_cons, List.getD_cons_zero, List.getD_cons_succ]
    rw [heq]
    exact lt_irrefl _

/-- C9 (amended): let `powf` be non-decreasing in its base on `[0,1]` for the exponent `0.7f`
and send base 1 to 1. For every vector of non-negative band values whose float32
`totalEnergy` is positive, the normalization block returns a vector of the same length in
which `bands[a] <= bands[b]` before the block gives `bands[a] <= bands[b]` after it, and a
band that attains the maximum before the block is 1 after it. -/
theorem normalization_preserves_weak_order (powf : ℝ → ℝ → ℝ)
    (hmono : ∀ x x', 0 ≤ x → x ≤ x' → x' ≤ 1 →
      powf x (toFloat 0.7) ≤ powf x' (toFloat 0.7))
    (hone : powf 1 (toFloat 0.7) = 1)
    (bands : List ℝ) (hnonneg : ∀ x ∈ bands, 0 ≤ x) (htotal : 0 < totalEnergyF32 bands) :
    ∃ out, normalizeF32 powf (totalEnergyF32 bands) bands = .ok out ∧
      out.length = bands.length ∧
      ∀ a b, a < bands.length → b < bands.length →
        (bands.getD a 0 ≤ bands.getD b 0 → out.getD a 0 ≤ out.getD b 0) ∧
        ((∀ c, c < bands.length → bands.getD c 0 ≤ bands.getD a 0) → out.getD a 0 = 1) := by
  cases bands with
  | nil =>
    exfalso
    have : totalEnergyF32 ([] : List ℝ) = 0 := rfl
    rw [this] at htotal
    exact lt_irrefl 0 htotal
  | cons x rest =>
    have hmem := maxElement_mem x rest
    have hle := le_maxElement x rest
    have hmpos : 0 < maxElement x rest := by
      by_contra hcon
      have hm0 : maxElement x rest ≤ 0 := not_lt.mp hcon
      have hall : ∀ y ∈ x :: rest, y = 0 := fun y hy =>
        le_antisymm (le_trans (hle y hy) hm0) (hnonneg y hy)
      rw [totalEnergyF32_zero _ hall] at htotal
      exact lt_irrefl 0 htotal
    have hget : ∀ a, a < (x :: rest).length →
        ((x :: rest).map fun band =>
          powf (toFloat (band / maxElement x rest)) (toFloat 0.7)).getD a 0 =
        powf (toFloat ((x :: rest).getD a 0 / maxElement x rest)) (toFloat 0.7) := by
      intro a ha
      rw [List.getD_eq_getElem?_getD, List.getD_eq_getElem?_getD,
        List.getElem?_eq_getElem (by simpa using ha), List.getElem?_eq_getElem ha,
        List.getElem_map]
      rfl
    have hin : ∀ a, a < (x :: rest).length → (x :: rest).getD a 0 ∈ x :: rest := by
      intro a ha
      rw [List.getD_eq_getElem?_getD, List.getElem?_eq_getElem ha]
      exact List.getElem_mem ha
    refine ⟨_, by unfold normalizeF32; rw [if_pos htotal], by simp, ?_⟩
    intro a b ha hb
    rw [hget a ha, hget b hb]
    constructor
    · intro hab
      apply hmono
      · exact toFloat_nonneg _ (div_nonneg (hnonneg _ (hin a ha)) (le_of_lt hmpos))
      · exact toFloat_mono _ _ (div_nonneg (hnonneg _ (hin a ha)) (le_of_lt hmpos))
          (div_le_div_of_nonneg_right hab (le_of_lt hmpos))
      · rw [← toFloat_one]
        exact toFloat_mono _ _ (div_nonneg (hnonneg _ (hin b hb)) (le_of_lt hmpos))
          ((div_le_one hmpos).mpr (hle _ (hin b hb)))
    · intro hmax
      have hma : (x :: rest).getD a 0 = maxElement x rest := by
        apply le_antisymm (hle _ (hin a ha))
        obtain ⟨c, hc, hcm⟩ := List.getElem_of_mem hmem
        have := hmax c hc
        rw [List.getD_eq_getElem?_getD, List.getElem?_eq_getElem hc, Option.getD_some,
          hcm] at this
        exact this
      rw [hma, div_self (ne_of_gt hmpos), toFloat_one, hone]

/-- Witness of C9 (amended): with the correctly rounded power and the band values
`15099494 / 2^22`, `15099495 / 2^22` and 43 in bands 0, 4 and 6, band 0 stays at most band 4
and band 6, the maximum, becomes 1. -/
theorem normalization_preserves_weak_order_witness :
    ∃ out, normalizeF32 powfRounded
        (totalEnergyF32 [15099494 / 4194304, 0, 0, 0, 15099495 / 4194304, 0, 43, 0])
        [15099494 / 4194304, 0, 0, 0, 15099495 / 4194304, 0, 43, 0] = .ok out ∧
      out.getD 0 0 ≤ out.getD 4 0 ∧ out.getD 6 0 = 1 := by
  obtain ⟨out, hout, _, hprop⟩ := normalization_preserves_weak_order powfRounded
    (fun x x' hx hxx _ => powfRounded_mono x x' hx hxx) (powfRounded_one _)
    [15099494 / 4194304, 0, 0, 0, 15099495 / 4194304, 0, 43, 0]
    (by
      intro x hx
      simp only [List.mem_cons, List.mem_singleton, List.not_mem_nil, or_false] at hx
      rcases hx with h | h | h | h | h | h | h | h <;> rw [h] <;> norm_num)
    (by rw [sample_totalEnergyF32]; norm_num)
  refine ⟨out, hout, ?_, ?_⟩
  · refine (hprop 0 4 (by simp) (by simp)).1 ?_
    simp only [List.getD_cons_zero, List.getD_cons_succ]
    norm_num
  · refine (hprop 6 6 (by simp) (by simp)).2 ?_
    intro c hc
    have hc8 : c < 8 := by simpa using hc
    interval_cases c <;> simp only [List.getD_cons_zero, List.getD_cons_succ] <;> norm_num

/-- C6: if the only nonzero bins of a spectrum have their frequency `i * binSize` inside the
range of band `b` and at least one bin is nonzero, then `Analyze` with 8 bands returns
`totalEnergy = bandGain[b] *` (sum of the magnitudes of the bins of band `b`), `bands[b] = 1`
and `bands[k] = 0` for every other `k`. -/
theorem single_band_spectrum (sr : Int) (b : ℕ) (hb : b < 8) (spectrum : List ℂ)
    (binSize : ℝ)
    (honly : ∀ i, i < spectrum.length → spectrum.getD i 0 ≠ 0 →
      ((VoiceFFTProcessor.new sr).voiceBandRanges.getD b (0, 0)).1 ≤ (i : ℝ) * binSize ∧
      (i : ℝ) * binSize ≤ ((VoiceFFTProcessor.new sr).voiceBandRanges.getD b (0, 0)).2)
    (hsome : ∃ i, i < spectrum.length ∧ spectrum.getD i 0 ≠ 0) :
    (VoiceFFTProcessor.new sr).processSpectralData spectrum binSize 8 =
      .ok ⟨(VoiceFFTProcessor.new sr).bandAmplification.getD b 0 *
            bandMagnitudeSum spectrum binSize
              ((VoiceFFTProcessor.new sr).voiceBandRanges.getD b (0, 0)).1
              ((VoiceFFTProcessor.new sr).voiceBandRanges.getD b (0, 0)).2,
          (List.range 8).map fun k => if k = b then 1 else 0⟩ := by
  have hzero : ∀ k, k ≠ b →
      preNormalized (VoiceFFTProcessor.new sr) spectrum binSize k = 0 := by
    intro k hk
    by_cases hk8 : k < 8
    · unfold preNormalized
      rw [if_pos (show k < (VoiceFFTProcessor.new sr).voiceBandRanges.length from hk8)]
      rw [bandMagnitudeSum_eq_zero, zero_mul]
      intro i hi hlo hhi
      by_contra hnz
      obtain ⟨h3, h4⟩ := honly i hi hnz
      exact band_ranges_disjoint sr b k hb hk8 hk _ hlo hhi h3 h4
    · exact preNormalized_of_le sr spectrum binSize k (by omega)
  have hb_eq : preNormalized (VoiceFFTProcessor.new sr) spectrum binSize b =
      bandMagnitudeSum spectrum binSize
        ((VoiceFFTProcessor.new sr).voiceBandRanges.getD b (0, 0)).1
        ((VoiceFFTProcessor.new sr).voiceBandRanges.getD b (0, 0)).2 *
      (VoiceFFTProcessor.new sr).bandAmplification.getD b 0 := by
    unfold preNormalized
    rw [if_pos (show b < (VoiceFFTProcessor.new sr).voiceBandRanges.length from hb)]
  have htot : totalOf (VoiceFFTProcessor.new sr) spectrum binSize =
      preNormalized (VoiceFFTProcessor.new sr) spectrum binSize b :=
    sum_range_eight_single _ b hb hzero
  obtain ⟨i, hi, hnz⟩ := hsome
  obtain ⟨hlo, hhi⟩ := honly i hi hnz
  have hpos : 0 < totalOf (VoiceFFTProcessor.new sr) spectrum binSize :=
    totalOf_pos_of_bin sr spectrum binSize b i hb hi hlo hhi hnz
  obtain ⟨m, hm, ⟨c, hc, hcm⟩, _, hr⟩ :=
    processSpectralData_pos sr spectrum binSize 8 (le_refl 8) (ne_of_gt hpos)
  have hcb : c = b := by
    by_contra hne
    rw [hzero c hne] at hcm
    rw [← hcm] at hm
    exact lt_irrefl 0 hm
  rw [hcb] at hcm
  rw [hr, htot, hb_eq, mul_comm]
  congr 2
  apply List.map_congr_left
  intro k _
  by_cases hk : k = b
  · rw [if_pos hk, hk, hcm, div_self (ne_of_gt hm), Real.one_rpow]
  · rw [if_neg hk, hzero k hk, zero_div, Real.zero_rpow (by norm_num)]

/-- Witness of C6: sample rate 16000, bins 50 Hz apart, the only nonzero bin (of magnitude 2)
at 150 Hz: the bands are `[1,0,0,0,0,0,0,0]` and `totalEnergy` is `1.8 * 2`. -/
theorem single_band_spectrum_witness :
    (VoiceFFTProcessor.new 16000).processSpectralData [0, 0, 0, 2] 50 8 =
      .ok ⟨1.8 * 2, [1, 0, 0, 0, 0, 0, 0, 0]⟩ := by
  have h := single_band_spectrum 16000 0 (by norm_num) [0, 0, 0, 2] 50
    (by
      intro i hi hnz
      have hi4 : i < 4 := hi
      interval_cases i
      · simp at hnz
      · simp at hnz
      · simp at hnz
      · simp [VoiceFFTProcessor.new]; norm_num)
    ⟨3, by simp, by simp⟩
  rw [h]
  have hsum : bandMagnitudeSum [0, 0, 0, 2] 50
      ((VoiceFFTProcessor.new 16000).voiceBandRanges.getD 0 (0, 0)).1
      ((VoiceFFTProcessor.new 16000).voiceBandRanges.getD 0 (0, 0)).2 = 2 := by
    have h4 : List.range 4 = [0, 1, 2, 3] := by decide
    simp [bandMagnitudeSum, VoiceFFTProcessor.new, h4]
    norm_num
  have hgain : (VoiceFFTProcessor.new 16000).bandAmplification.getD 0 0 = 1.8 := by
    simp [VoiceFFTProcessor.new]
  have h8 : List.range 8 = [0, 1, 2, 3, 4, 5, 6, 7] := by decide
  rw [hsum, hgain, h8]
  simp

/-- C5: with 8 bands, the empty byte stream, the empty spectrum, every all-zero spectrum and
every all-zero byte stream give `totalEnergy = 0` and the bands `[0,0,0,0,0,0,0,0]`; on an
all-zero spectrum the band loop ends with a `totalEnergy` that is not positive, so the
normalization block is not entered. -/
theorem degenerate_input_zero (sr : Int) (binSize : ℝ) :
    (VoiceFFTProcessor.new sr).processFFT [] 8 = .ok ⟨0, [0, 0, 0, 0, 0, 0, 0, 0]⟩ ∧
    (VoiceFFTProcessor.new sr).processSpectralData [] binSize 8 =
      .ok ⟨0, [0, 0, 0, 0, 0, 0, 0, 0]⟩ ∧
    (∀ spectrum : List ℂ, (∀ z ∈ spectrum, z = 0) →
      (VoiceFFTProcessor.new sr).processSpectralData spectrum binSize 8 =
        .ok ⟨0, [0, 0, 0, 0, 0, 0, 0, 0]⟩ ∧
      ∃ st, bandLoop (VoiceFFTProcessor.new sr) spectrum binSize 8 = .ok st ∧
        ¬ (st.totalEnergy > 0) ∧ st.bands = [0, 0, 0, 0, 0, 0, 0, 0] ∧
        normalize st.totalEnergy st.bands = .ok st.bands) ∧
    (∀ fftData : List Int, (∀ b ∈ fftData, b = 0) →
      (VoiceFFTProcessor.new sr).processFFT fftData 8 =
        .ok ⟨0, [0, 0, 0, 0, 0, 0, 0, 0]⟩) := by
  have hspec : ∀ spectrum : List ℂ, (∀ z ∈ spectrum, z = 0) →
      (VoiceFFTProcessor.new sr).processSpectralData spectrum binSize 8 =
        .ok ⟨0, [0, 0, 0, 0, 0, 0, 0, 0]⟩ := by
    intro spectrum hz
    exact processSpectralData_zero sr spectrum binSize 8 (le_refl 8)
      (totalOf_all_zero sr spectrum binSize hz)
  refine ⟨rfl, hspec [] (by simp), ?_, ?_⟩
  · intro spectrum hz
    refine ⟨hspec spectrum hz, ?_⟩
    obtain ⟨st, h1, h2, h3⟩ := bandLoop_new sr spectrum binSize 8 (le_refl 8)
    have ht : st.totalEnergy = 0 := by
      rw [h3]
      exact totalOf_all_zero sr spectrum binSize hz
    have hb : st.bands = [0, 0, 0, 0, 0, 0, 0, 0] := by
      rw [h2]
      have h8 : List.range 8 = [0, 1, 2, 3, 4, 5, 6, 7] := by decide
      have hp : ∀ b, preNormalized (VoiceFFTProcessor.new sr) spectrum binSize b = 0 := by
        intro b
        apply le_antisymm
        · rw [← totalOf_all_zero sr spectrum binSize hz]
          exact preNormalized_le_totalOf sr spectrum binSize b
        · exact preNormalized_nonneg sr spectrum binSize b
      simp only [h8, List.map_cons, List.map_nil, hp]
    refine ⟨st, h1, ?_, hb, ?_⟩
    · rw [ht]; exact lt_irrefl 0
    · unfold normalize
      rw [ht, if_neg (lt_irrefl 0)]
  · intro fftData hz
    cases fftData with
    | nil => rfl
    | cons x rest =>
      rw [processFFT_eq sr (x :: rest) 8 (by simp) (le_refl 8)]
      exact processSpectralData_zero sr _ _ 8 (le_refl 8)
        (totalOf_all_zero sr _ _ (complexArray_all_zero (x :: rest) _ hz))

/-- Witness of C5: the all-zero statements applied to a two-bin zero spectrum and to a
four-byte zero stream. -/
theorem degenerate_input_zero_witness :
    (VoiceFFTProcessor.new 16000).processSpectralData [0, 0] 4000 8 =
      .ok ⟨0, [0, 0, 0, 0, 0, 0, 0, 0]⟩ ∧
    (VoiceFFTProcessor.new 16000).processFFT [0, 0, 0, 0] 8 =
      .ok ⟨0, [0, 0, 0, 0, 0, 0, 0, 0]⟩ :=
  ⟨((degenerate_input_zero 16000 4000).2.2.1 [0, 0] (by simp)).1,
   (degenerate_input_zero 16000 4000).2.2.2 [0, 0, 0, 0] (by simp)⟩

/-- C8 (the code at failing inputs): with `numBands = 4`, and with every `numBands` from 0
to 7, the band loop stores past the end of the `numBands`-entry `bands` vector, whatever the
spectrum and the bin size are; no bands vector is returned. -/
theorem bands_store_out_of_bounds (sr : Int) (spectrum : List ℂ) (binSize : ℝ) :
    (VoiceFFTProcessor.new sr).processSpectralData spectrum binSize 4 =
      .error .outOfBounds ∧
    ∀ n : Fin 8, (VoiceFFTProcessor.new sr).processSpectralData spectrum binSize
      ((n : ℕ) : Int) = .error .outOfBounds := by
  have hall : ∀ n : Fin 8, (VoiceFFTProcessor.new sr).processSpectralData spectrum binSize
      ((n : ℕ) : Int) = .error .outOfBounds := by
    intro n
    unfold VoiceFFTProcessor.processSpectralData
    rw [if_neg (by omega), Int.toNat_natCast, bandLoop_fault sr spectrum binSize n n.isLt]
  exact ⟨hall ⟨4, by norm_num⟩, hall⟩

/-- C4 (as stated, refuted): a 201-byte stream at sample rate 16000 whose byte at index 4
is 1 and whose other bytes are 0 has odd length, yet `processFFT` with 8 bands does not return
the zero result: the bin built from bytes 4 and 5 lies at 160 Hz and has energy. -/
theorem odd_length_not_rejected :
    (List.replicate 4 (0 : Int) ++ 1 :: List.replicate 196 0).length % 2 = 1 ∧
    ¬ ((VoiceFFTProcessor.new 16000).processFFT
        (List.replicate 4 (0 : Int) ++ 1 :: List.replicate 196 0) 8 =
      .ok ⟨0, [0, 0, 0, 0, 0, 0, 0, 0]⟩) := by
  have hlen : (List.replicate 4 (0 : Int) ++ 1 :: List.replicate 196 0).length = 201 := by
    rw [List.length_append, List.length_cons, List.length_replicate, List.length_replicate]
  have h4 : (List.replicate 4 (0 : Int) ++ 1 :: List.replicate 196 0).getD 4 0 = 1 := by
    rw [List.getD_eq_getElem?_getD,
      List.getElem?_append_right (by rw [List.length_replicate]), List.length_replicate,
      Nat.sub_self, List.getElem?_cons_zero, Option.getD_some]
  refine ⟨by rw [hlen], ?_⟩
  exact processFFT_energy_of_byte4 _ hlen h4

/-- C4 (amended): for a byte stream of odd length and `numBands >= 8`, `processFFT` does not
fail, returns `numBands` bands, and ignores the trailing byte: its result is the result on
the stream without its last byte. -/
theorem odd_length_ignores_last_byte (sr : Int) (fftData : List Int) (numBands : Int)
    (hodd : fftData.length % 2 = 1) (hn : 8 ≤ numBands) :
    (∃ r, (VoiceFFTProcessor.new sr).processFFT fftData numBands = .ok r ∧
      r.spectrum.length = numBands.toNat) ∧
    (VoiceFFTProcessor.new sr).processFFT fftData numBands =
      (VoiceFFTProcessor.new sr).processFFT fftData.dropLast numBands := by
  refine ⟨?_, processFFT_odd sr fftData numBands hodd hn⟩
  have hne : fftData ≠ [] := by
    intro h
    rw [h] at hodd
    simp at hodd
  rw [processFFT_eq sr fftData numBands hne hn]
  obtain ⟨r, hr, _, hl⟩ := processSpectralData_ok sr
    (complexArray fftData (fftData.length / 2))
    ((sr : ℝ) / ((fftData.length / 2 * 2 : ℕ) : ℝ)) numBands hn
  exact ⟨r, hr, hl⟩

/-- Witness of C4 (amended): a three-byte stream gives what its first two bytes give. -/
theorem odd_length_ignores_last_byte_witness :
    ([3, 4, 5] : List Int).length % 2 = 1 ∧ (8 : Int) ≤ 8 ∧
    (VoiceFFTProcessor.new 16000).processFFT [3, 4, 5] 8 =
      (VoiceFFTProcessor.new 16000).processFFT [3, 4] 8 :=
  ⟨by decide, by decide,
    (odd_length_ignores_last_byte 16000 [3, 4, 5] 8 (by decide) (by decide)).2⟩

/-- C1: for every 32-bit signed `size`, `createPlan` leaves an `IllegalArgumentException`
pending and returns the handle 0 exactly when `size <= 0` or `size` is not a power of two;
for a positive power of two, when the allocation succeeds, it returns the non-null address
of a freshly built plan and no exception is pending. -/
theorem createPlan_rejects_iff (heap : NewOutcome) (size : Int)
    (hlo : -2 ^ 31 ≤ size) (hhi : size < 2 ^ 31) :
    ((((createPlan heap size).pending.map Prod.fst = some .IllegalArgumentException) ∧
        (createPlan heap size).handle = 0) ↔ (size ≤ 0 ∨ ¬ ∃ k : ℕ, size = 2 ^ k)) ∧
    ((0 < size ∧ ∃ k : ℕ, size = 2 ^ k) →
      ∀ addr (nonnull : addr ≠ 0), heap = .allocated addr nonnull →
        (createPlan heap size).handle ≠ 0 ∧ (createPlan heap size).pending = none ∧
        (createPlan heap size).plan = some (FFTPlan.new size)) := by
  constructor
  · constructor
    · rintro ⟨hp, _⟩
      by_contra hgood
      have hpos : 0 < size := by
        by_contra h0
        exact hgood (Or.inl (by omega))
      have hk : ∃ k : ℕ, size = 2 ^ k := by
        by_contra hk
        exact hgood (Or.inr hk)
      rw [createPlan_of_good_size heap size hpos hk] at hp
      cases heap <;> simp at hp
    · intro hbad
      obtain ⟨msg, hm⟩ := createPlan_of_bad_size heap size hbad
      rw [hm]
      exact ⟨rfl, rfl⟩
  · rintro ⟨hpos, hk⟩ addr nonnull hheap
    rw [createPlan_of_good_size heap size hpos hk, hheap]
    exact ⟨nonnull, rfl, rfl⟩

/-- Witness of C1: `createPlan(0)` and `createPlan(100)` leave an `IllegalArgumentException`
pending and return 0; `createPlan(1024)` returns the allocated address. -/
theorem createPlan_rejects_iff_witness :
    ((createPlan (.allocated 4096 (by decide)) 0).pending.map Prod.fst =
        some .IllegalArgumentException ∧
      (createPlan (.allocated 4096 (by decide)) 0).handle = 0) ∧
    ((createPlan (.allocated 4096 (by decide)) 100).pending.map Prod.fst =
        some .IllegalArgumentException ∧
      (createPlan (.allocated 4096 (by decide)) 100).handle = 0) ∧
    ((createPlan (.allocated 4096 (by decide)) 1024).handle = 4096 ∧
      (createPlan (.allocated 4096 (by decide)) 1024).handle ≠ 0 ∧
      (createPlan (.allocated 4096 (by decide)) 1024).pending = none) := by
  refine ⟨?_, ?_, ?_⟩
  · exact (createPlan_rejects_iff (.allocated 4096 (by decide)) 0
      (by norm_num) (by norm_num)).1.mpr (Or.inl (le_refl 0))
  · refine (createPlan_rejects_iff (.allocated 4096 (by decide)) 100
      (by norm_num) (by norm_num)).1.mpr (Or.inr ?_)
    rintro ⟨k, hk⟩
    have hk7 : k < 7 := by
      by_contra hge
      have h128 : (2 : Int) ^ 7 ≤ 2 ^ k := pow_le_pow_right₀ (by norm_num) (by omega)
      rw [← hk] at h128
      norm_num at h128
    interval_cases k <;> norm_num at hk
  · have h := (createPlan_rejects_iff (.allocated 4096 (by decide)) 1024
      (by norm_num) (by norm_num)).2 ⟨by norm_num, 10, by norm_num⟩ 4096 (by decide) rfl
    exact ⟨rfl, h.1, h.2.1⟩

/-- C7: on a plan reached through a non-null handle, `forwardTransform` with a sample array
whose length differs from the plan size, or a magnitude or phase array whose length differs
from `size / 2 + 1`, and `inverseTransform` with a magnitude or phase array whose length
differs from `size / 2 + 1`, or an output array whose length differs from the plan size,
leave an `IllegalArgumentException` pending and change neither the plan buffers nor any of
the three arrays; a later call on the same plan with arrays of the right sizes leaves no
exception pending. -/
theorem size_mismatch_atomic (env : JNIEnv) (planPtr : Int) (plan : FFTPlan)
    (hptr : planPtr ≠ 0) (a b c : List ℝ) :
    (((a.length : Int) ≠ plan.size ∨ (b.length : Int) ≠ Int.tdiv plan.size 2 + 1 ∨
        (c.length : Int) ≠ Int.tdiv plan.size 2 + 1) →
      (forwardTransform env planPtr plan (some a) (some b) (some c)).pending.map Prod.fst =
        some .IllegalArgumentException ∧
      (forwardTransform env planPtr plan (some a) (some b) (some c)).plan = plan ∧
      (forwardTransform env planPtr plan (some a) (some b) (some c)).inArray = some a ∧
      (forwardTransform env planPtr plan (some a) (some b) (some c)).magArray = some b ∧
      (forwardTransform env planPtr plan (some a) (some b) (some c)).phaseArray = some c ∧
      ∀ (env2 : JNIEnv) (a2 b2 c2 : List ℝ), (a2.length : Int) = plan.size →
        (b2.length : Int) = Int.tdiv plan.size 2 + 1 →
        (c2.length : Int) = Int.tdiv plan.size 2 + 1 →
        env2.pinned 0 = true → env2.pinned 1 = true → env2.pinned 2 = true →
        (forwardTransform env2 planPtr
          (forwardTransform env planPtr plan (some a) (some b) (some c)).plan
          (some a2) (some b2) (some c2)).pending = none) ∧
    (((a.length : Int) ≠ Int.tdiv plan.size 2 + 1 ∨
        (b.length : Int) ≠ Int.tdiv plan.size 2 + 1 ∨ (c.length : Int) ≠ plan.size) →
      (inverseTransform env planPtr plan (some a) (some b) (some c)).pending.map Prod.fst =
        some .IllegalArgumentException ∧
      (inverseTransform env planPtr plan (some a) (some b) (some c)).plan = plan ∧
      (inverseTransform env planPtr plan (some a) (some b) (some c)).magArray = some a ∧
      (inverseTransform env planPtr plan (some a) (some b) (some c)).phaseArray = some b ∧
      (inverseTransform env planPtr plan (some a) (some b) (some c)).outArray = some c ∧
      ∀ (env2 : JNIEnv) (a2 b2 c2 : List ℝ), (a2.length : Int) = Int.tdiv plan.size 2 + 1 →
        (b2.length : Int) = Int.tdiv plan.size 2 + 1 → (c2.length : Int) = plan.size →
        env2.pinned 0 = true → env2.pinned 1 = true →
        (inverseTransform env2 planPtr
          (inverseTransform env planPtr plan (some a) (some b) (some c)).plan
          (some a2) (some b2) (some c2)).pending = none) := by
  constructor
  · intro hbad
    obtain ⟨msg, hm⟩ := forwardTransform_mismatch env planPtr plan hptr a b c hbad
    rw [hm]
    refine ⟨rfl, rfl, rfl, rfl, rfl, ?_⟩
    intro env2 a2 b2 c2 ha hb hc h0 h1 h2
    rw [forwardTransform_ok env2 planPtr plan hptr a2 b2 c2 ha hb hc h0 h1 h2]
  · intro hbad
    obtain ⟨msg, hm⟩ := inverseTransform_mismatch env planPtr plan hptr a b c hbad
    rw [hm]
    refine ⟨rfl, rfl, rfl, rfl, rfl, ?_⟩
    intro env2 a2 b2 c2 ha hb hc h0 h1
    rw [inverseTransform_ok env2 planPtr plan hptr a2 b2 c2 ha hb hc h0 h1]

/-- Witness of C7: on a fresh plan of size 4, a forward call with 3 samples and an inverse
call with a 3-entry output array are refused and leave the plan as it was. -/
theorem size_mismatch_atomic_witness :
    (4096 : Int) ≠ 0 ∧
    ((forwardTransform ⟨fun _ => true⟩ 4096 (FFTPlan.new 4) (some [1, 2, 3])
        (some [0, 0, 0]) (some [0, 0, 0])).pending.map Prod.fst =
        some .IllegalArgumentException ∧
      (forwardTransform ⟨fun _ => true⟩ 4096 (FFTPlan.new 4) (some [1, 2, 3])
        (some [0, 0, 0]) (some [0, 0, 0])).plan = FFTPlan.new 4) ∧
    ((inverseTransform ⟨fun _ => true⟩ 4096 (FFTPlan.new 4) (some [1, 2, 3])
        (some [0, 0, 0]) (some [0, 0, 0])).pending.map Prod.fst =
        some .IllegalArgumentException ∧
      (inverseTransform ⟨fun _ => true⟩ 4096 (FFTPlan.new 4) (some [1, 2, 3])
        (some [0, 0, 0]) (some [0, 0, 0])).plan = FFTPlan.new 4) := by
  have hf := (size_mismatch_atomic ⟨fun _ => true⟩ 4096 (FFTPlan.new 4) (by decide)
    [1, 2, 3] [0, 0, 0] [0, 0, 0]).1 (Or.inl (by decide))
  have hi := (size_mismatch_atomic ⟨fun _ => true⟩ 4096 (FFTPlan.new 4) (by decide)
    [1, 2, 3] [0, 0, 0] [0, 0, 0]).2 (Or.inr (Or.inr (by decide)))
  exact ⟨by decide, ⟨hf.1, hf.2.1⟩, ⟨hi.1, hi.2.1⟩⟩

/-- C2: let a plan of positive size `N` be reached through a non-null handle, `S` be a sample
array of length `N`, the magnitude and phase arrays have length `N / 2 + 1` and the output
array length `N`, and let the JNI array accesses succeed. Then `forwardTransform` succeeds and
writes `mag[k] = |out[k]|` and `phase[k] = arg out[k]` for each of the `N / 2 + 1` bins.
Whatever the two buffers of the plan hold when `inverseTransform` is then called with these
magnitude and phase arrays (`plan2`: same size, buffers arbitrary), the call succeeds, its
polar reconstruction `mag * (cos phase, sin phase)` puts every bin of the forward transform
back into the frequency buffer, and the output array ends up equal to `S` (the forward scale
1 and the inverse scale `1 / N` cancel). -/
theorem round_trip (env1 env2 : JNIEnv) (planPtr : Int) (plan plan2 : FFTPlan)
    (S mag phase output : List ℝ) (hptr : planPtr ≠ 0) (hsize : 0 < plan.size)
    (hsame : plan2.size = plan.size)
    (hbuf : (Int.tdiv plan.size 2 + 1).toNat ≤ plan2.out.length)
    (hS : (S.length : Int) = plan.size)
    (hmag : (mag.length : Int) = Int.tdiv plan.size 2 + 1)
    (hphase : (phase.length : Int) = Int.tdiv plan.size 2 + 1)
    (houtput : (output.length : Int) = plan.size)
    (p0 : env1.pinned 0 = true) (p1 : env1.pinned 1 = true) (p2 : env1.pinned 2 = true)
    (q0 : env2.pinned 0 = true) (q1 : env2.pinned 1 = true) :
    (forwardTransform env1 planPtr plan (some S) (some mag) (some phase)).pending = none ∧
    (∃ m ph,
      (forwardTransform env1 planPtr plan (some S) (some mag) (some phase)).magArray =
        some m ∧
      (forwardTransform env1 planPtr plan (some S) (some mag) (some phase)).phaseArray =
        some ph ∧
      ∀ k, k < (Int.tdiv plan.size 2 + 1).toNat →
        m.getD k 0 = Complex.abs
          ((forwardTransform env1 planPtr plan (some S) (some mag) (some phase)).plan.out.getD
            k 0) ∧
        ph.getD k 0 = Complex.arg
          ((forwardTransform env1 planPtr plan (some S) (some mag) (some phase)).plan.out.getD
            k 0)) ∧
    (inverseTransform env2 planPtr plan2
      (forwardTransform env1 planPtr plan (some S) (some mag) (some phase)).magArray
      (forwardTransform env1 planPtr plan (some S) (some mag) (some phase)).phaseArray
      (some output)).pending = none ∧
    (∀ k, k < (Int.tdiv plan.size 2 + 1).toNat →
      (inverseTransform env2 planPtr plan2
        (forwardTransform env1 planPtr plan (some S) (some mag) (some phase)).magArray
        (forwardTransform env1 planPtr plan (some S) (some mag) (some phase)).phaseArray
        (some output)).plan.out.getD k 0 =
      (forwardTransform env1 planPtr plan (some S) (some mag) (some phase)).plan.out.getD
        k 0) ∧
    (inverseTransform env2 planPtr plan2
      (forwardTransform env1 planPtr plan (some S) (some mag) (some phase)).magArray
      (forwardTransform env1 planPtr plan (some S) (some mag) (some phase)).phaseArray
      (some output)).outArray = some S := by
  have hdiv : Int.tdiv plan.size 2 = plan.size / 2 :=
    Int.tdiv_eq_ediv (le_of_lt hsize) (by norm_num)
  have hcount : (Int.tdiv plan.size 2 + 1).toNat = plan.size.toNat / 2 + 1 := by
    rw [hdiv]; omega
  have hSn : S.length = plan.size.toNat := by omega
  have hmagn : mag.length = plan.size.toNat / 2 + 1 := by rw [hdiv] at hmag; omega
  have hphasen : phase.length = plan.size.toNat / 2 + 1 := by rw [hdiv] at hphase; omega
  have houtn : output.length = plan.size.toNat := by omega
  have hn0 : plan.size.toNat ≠ 0 := by omega
  have hcast : (plan.size : ℝ) = ((plan.size.toNat : ℕ) : ℝ) := by
    have h1 : ((plan.size.toNat : ℕ) : Int) = plan.size := Int.toNat_of_nonneg (le_of_lt hsize)
    rw [← Int.cast_natCast, h1]
  rw [hcount] at hbuf
  rw [forwardTransform_ok env1 planPtr plan hptr S mag phase hS hmag hphase p0 p1 p2]
  dsimp only
  rw [hcount]
  have hbins : ∀ k, k ≤ plan.size.toNat / 2 →
      (r2c plan.size.toNat true
        (S.take plan.size.toNat ++ plan.in_.drop plan.size.toNat) 1 ++
        plan.out.drop (plan.size.toNat / 2 + 1)).getD k 0 =
      ∑ j ∈ Finset.range plan.size.toNat, (S.getD j 0 : ℂ) *
        (Complex.exp (2 * Real.pi * Complex.I / plan.size.toNat))⁻¹ ^ (j * k) := by
    intro k hk
    rw [r2c_getD plan.size.toNat _ _ k hk]
    apply Finset.sum_congr rfl
    intro j hj
    rw [take_append_getD S _ plan.size.toNat j hSn (Finset.mem_range.mp hj)]
  generalize r2c plan.size.toNat true
      (S.take plan.size.toNat ++ plan.in_.drop plan.size.toNat) 1 ++
      plan.out.drop (plan.size.toNat / 2 + 1) = bins at hbins ⊢
  have hm1 : (((polarLoop bins (plan.size.toNat / 2 + 1) mag phase).1.length : ℕ) : Int) =
      Int.tdiv plan2.size 2 + 1 := by
    unfold polarLoop
    rw [foldl_set_length, hsame]
    exact hmag
  have hp1 : (((polarLoop bins (plan.size.toNat / 2 + 1) mag phase).2.length : ℕ) : Int) =
      Int.tdiv plan2.size 2 + 1 := by
    unfold polarLoop
    rw [foldl_set_length, hsame]
    exact hphase
  have hrestored : ∀ k, k < plan.size.toNat / 2 + 1 →
      (cartesianLoop (polarLoop bins (plan.size.toNat / 2 + 1) mag phase).1
        (polarLoop bins (plan.size.toNat / 2 + 1) mag phase).2
        (plan.size.toNat / 2 + 1) plan2.out).getD k 0 = bins.getD k 0 := by
    intro k hk
    exact cartesianLoop_polarLoop_getD bins plan2.out (plan.size.toNat / 2 + 1) mag phase
      hbuf (le_of_eq hmagn.symm) (le_of_eq hphasen.symm) k hk
  have hinv := c2r_inverts plan.size.toNat hn0 S hSn
    (cartesianLoop (polarLoop bins (plan.size.toNat / 2 + 1) mag phase).1
      (polarLoop bins (plan.size.toNat / 2 + 1) mag phase).2
      (plan.size.toNat / 2 + 1) plan2.out) (by
    intro k hk
    rw [hrestored k (by omega), hbins k hk])
  rw [inverseTransform_ok env2 planPtr plan2 hptr
    (polarLoop bins (plan.size.toNat / 2 + 1) mag phase).1
    (polarLoop bins (plan.size.toNat / 2 + 1) mag phase).2 output hm1 hp1
    (by rw [hsame]; exact houtput) q0 q1]
  dsimp only
  rw [hsame, hcount, hcast, hinv]
  refine ⟨rfl, ⟨_, _, rfl, rfl, ?_⟩, rfl, hrestored, ?_⟩
  · intro k hk
    exact polarLoop_getD bins (plan.size.toNat / 2 + 1) mag phase
      (le_of_eq hmagn.symm) (le_of_eq hphasen.symm) k hk
  · congr 1
    rw [List.take_append_of_le_length (le_of_eq hSn.symm), ← hSn, List.take_length,
      List.drop_eq_nil_of_le (by omega), List.append_nil]

/-- Witness of C2: the samples `[1, 2]` go forward through a fresh plan of size 2 and come
back through a plan of size 2 whose buffers hold other values. -/
theorem round_trip_witness :
    (inverseTransform ⟨fun _ => true⟩ 4096 ⟨2, [7, 8], [5, 6]⟩
      (forwardTransform ⟨fun _ => true⟩ 4096 (FFTPlan.new 2) (some [1, 2]) (some [0, 0])
        (some [0, 0])).magArray
      (forwardTransform ⟨fun _ => true⟩ 4096 (FFTPlan.new 2) (some [1, 2]) (some [0, 0])
        (some [0, 0])).phaseArray
      (some [0, 0])).outArray = some [1, 2] :=
  (round_trip ⟨fun _ => true⟩ ⟨fun _ => true⟩ 4096 (FFTPlan.new 2) ⟨2, [7, 8], [5, 6]⟩
    [1, 2] [0, 0] [0, 0] [0, 0] (by decide) (by decide) rfl (by decide) (by decide)
    (by decide) (by decide) (by decide) rfl rfl rfl rfl rfl).2.2.2.2

end FFTNative

end
